import Mathlib

/-!
# Verification of the Laravel backend generator core

Shallow embedding of the schema-extraction-and-code-generation pipeline of
`laravel_generator.py` and `helpers.py`, together with theorems settling the
specified properties: name conversion, pluralization/singularization, the
heuristic type-correction pass, migration/validation emission of column
metadata, and the dependency sort over the foreign-key graph.

Python strings are modelled through `String.data : List Char`; each `py*`
helper mirrors the corresponding Python `str` method (`.lower()`,
`.endswith()`, slicing `[:-n]`, `in`, `.isdigit()`, `.replace()`,
`.strip()`, `.split()`).  Python `dict`s keyed by table name are modelled
as association lists in insertion order, and Python exceptions
(`KeyError` from `dependency_map[...]`, `ValueError` from `int(...)`) are
modelled with `Except`.
-/

set_option maxHeartbeats 1000000

namespace LaravelGen

/-! ## Python string primitives -/

/-- Python `s.lower()` (ASCII behaviour suffices for all inputs considered). -/
def pyLower (s : String) : String := ⟨s.data.map Char.toLower⟩

/-- Python `s.endswith(suffix)`. -/
def pyEndsWith (s suffix : String) : Bool :=
  suffix.data.reverse.isPrefixOf s.data.reverse

/-- Python `s.endswith((a, b, ...))`: true when some listed suffix matches. -/
def pyEndsWithAny (s : String) (sufs : List String) : Bool :=
  sufs.any (pyEndsWith s)

/-- Python slicing `s[:-n]` for `n ≥ 1` (drop the last `n` characters). -/
def pyDropRight (s : String) (n : Nat) : String :=
  ⟨(s.data.reverse.drop n).reverse⟩

/-- Membership-based substring search over `List Char`; `strFind ndl hay`
decides whether `ndl` occurs inside `hay`. -/
def strFind (ndl : List Char) : List Char → Bool
  | [] => ndl.isEmpty
  | c :: t => ndl.isPrefixOf (c :: t) || strFind ndl t

/-- Python `sub in s`. -/
def pyContains (s sub : String) : Bool := strFind sub.data s.data

/-- Python `s.isdigit()` (ASCII digits; empty string is not a digit string). -/
def pyIsDigit (s : String) : Bool := !s.data.isEmpty && s.data.all Char.isDigit

/-- Python `s.replace('-', '')`. -/
def pyRemoveDashes (s : String) : String := ⟨s.data.filter (fun c => c != '-')⟩

/-- Python `s.strip()`. -/
def pyStrip (s : String) : String :=
  ⟨((s.data.dropWhile Char.isWhitespace).reverse.dropWhile Char.isWhitespace).reverse⟩

/-- Python `s.split(sep)[0]`. -/
def pySplitHead (s : String) (sep : Char) : String := ⟨s.data.takeWhile (fun c => c ≠ sep)⟩

/-- Python `s.replace("'", "\\'")` as used when escaping comments. -/
def pyEscapeQuotes (s : String) : String :=
  ⟨(s.data.map (fun c => if c = '\'' then ['\\', '\''] else [c])).flatten⟩

/-- Numeric value of a digit string (used to model Python `int(...)`). -/
def digitsVal (l : List Char) : Nat := l.foldl (fun n c => n * 10 + (c.toNat - 48)) 0

/-- Python `int(s)`, restricted to the digit/dash strings that can actually
reach the conversion sites in the generator (everything else was already
filtered out by an `isdigit` test): an optional single leading `-` followed
by a nonempty run of digits parses, anything else raises `ValueError`
(modelled as `none`). -/
def pyInt (s : String) : Option Int :=
  match s.data with
  | '-' :: rest =>
      if !rest.isEmpty && rest.all Char.isDigit then some (-(digitsVal rest : Int)) else none
  | l => if !l.isEmpty && l.all Char.isDigit then some ((digitsVal l : Int)) else none

/-- Second-to-last character, Python `word[-2]` (only consulted when the
length guard `len(word) > 1` already holds; the fallback is irrelevant). -/
def secondLast (s : String) : Char := (s.data.reverse.drop 1).headD ' '

/-! ## `NamingHelper` (helpers.py) -/

/-- Word-splitting used by `NamingHelper.to_studly_case`: splitting the
string on runs of `-`, `_` and whitespace and dropping empty segments,
exactly the effect of `re.sub(r'[-_\s]+', ' ', s)` followed by `split()`. -/
def isSepChar (c : Char) : Bool := c = '-' || c = '_' || c.isWhitespace

def splitWordsAux (cur : List Char) : List Char → List (List Char)
  | [] => if cur.isEmpty then [] else [cur.reverse]
  | c :: t =>
      if isSepChar c then
        (if cur.isEmpty then splitWordsAux [] t else cur.reverse :: splitWordsAux [] t)
      else splitWordsAux (c :: cur) t

/-- Python `str.capitalize()`: first character uppercased, the rest lowercased. -/
def pyCapitalize (w : List Char) : List Char :=
  match w with
  | [] => []
  | c :: t => c.toUpper :: t.map Char.toLower

/-- `NamingHelper.to_studly_case`. -/
def to_studly_case (s : String) : String :=
  ⟨((splitWordsAux [] s.data).map pyCapitalize).flatten⟩

/-- `NamingHelper.to_camel_case`. -/
def to_camel_case (s : String) : String :=
  let st := to_studly_case s
  match st.data with
  | [] => ""
  | c :: t => ⟨c.toLower :: t⟩

/-- Irregular table of `NamingHelper.to_plural`. -/
def irregularPlural : List (String × String) :=
  [("person", "people"), ("man", "men"), ("woman", "women"), ("child", "children"),
   ("tooth", "teeth"), ("foot", "feet"), ("mouse", "mice"), ("goose", "geese")]

/-- Irregular table of `NamingHelper.to_singular`. -/
def irregularSingular : List (String × String) :=
  [("people", "person"), ("men", "man"), ("women", "woman"), ("children", "child"),
   ("teeth", "tooth"), ("feet", "foot"), ("mice", "mouse"), ("geese", "goose")]

def vowels : List Char := ['a', 'e', 'i', 'o', 'u']

/-- `NamingHelper.to_plural`. -/
def to_plural (word : String) : String :=
  match List.lookup (pyLower word) irregularPlural with
  | some p => p
  | none =>
    if pyEndsWith word "y" && decide (1 < word.length) && !(vowels.contains (secondLast word)) then
      pyDropRight word 1 ++ "ies"
    else if pyEndsWithAny word ["s", "ss", "x", "z", "ch", "sh"] then word ++ "es"
    else if pyEndsWith word "f" then pyDropRight word 1 ++ "ves"
    else if pyEndsWith word "fe" then pyDropRight word 2 ++ "ves"
    else word ++ "s"

/-- `NamingHelper.to_singular`. -/
def to_singular (word : String) : String :=
  match List.lookup (pyLower word) irregularSingular with
  | some p => p
  | none =>
    if pyEndsWith word "ies" && decide (3 < word.length) then pyDropRight word 3 ++ "y"
    else if pyEndsWith word "ves" then pyDropRight word 3 ++ "f"
    else if pyEndsWithAny word ["ses", "xes", "zes", "ches", "shes"] then pyDropRight word 2
    else if pyEndsWith word "s" && decide (1 < word.length) then pyDropRight word 1
    else word

/-! ## `LaravelGenerator._singular` (laravel_generator.py) -/

/-- Spanish/English irregular table of `LaravelGenerator._singular`. -/
def irregularsEs : List (String × String) :=
  [("clientes", "cliente"), ("medicos", "medico"), ("servicios", "servicio"),
   ("horarios", "horario"), ("estatus", "estatus"), ("roles", "rol"), ("users", "user")]

/-- `LaravelGenerator._singular`. -/
def gen_singular (word : String) : String :=
  match List.lookup (pyLower word) irregularsEs with
  | some r => if (word.data.headD ' ').isUpper then ⟨pyCapitalize r.data⟩ else r
  | none =>
    if pyEndsWith word "ies" then pyDropRight word 3 ++ "y"
    else if pyEndsWith word "es" then pyDropRight word 2
    else if pyEndsWith word "s" then pyDropRight word 1
    else word

/-! ## Data model (the dictionaries built by `WorkbenchParser`) -/

/-- A column record as produced by `WorkbenchParser._extract_column`.
`dflt` is the Python key `'default'`. All metadata fields hold the raw
strings read from the model file (`''` when absent, as `_get_text` does). -/
structure Column where
  name : String
  type : String
  length : String
  precision : String
  scale : String
  not_null : Bool
  auto_increment : Bool
  dflt : String
  comment : String
deriving DecidableEq

/-- An index record as produced by `WorkbenchParser._extract_index`. -/
structure IndexInfo where
  name : String
  itype : String
  unique : Bool
  columns : List String
deriving DecidableEq

/-- A table record as produced by `WorkbenchParser._extract_tables`. -/
structure Table where
  name : String
  comment : String
  columns : List Column
  indexes : List IndexInfo
  has_soft_deletes : Bool
deriving DecidableEq

/-- A relationship (foreign key) record as produced by
`WorkbenchParser._extract_relationships`. `source_table`/`target_table`
are `none` when the corresponding link element is absent (Python `None`). -/
structure Relationship where
  name : String
  source_table : Option String
  target_table : Option String
  source_columns : List String
  target_columns : List String
  on_delete : String
  on_update : String
deriving DecidableEq

/-- Identifier resolution of `WorkbenchParser._extract_relationships`:
`table_map.get(ref_id, ref_id)` — fall back to the raw internal identifier
when the lookup fails, never raising. -/
def resolve_ref (tableMap : List (String × String)) (refId : String) : String :=
  (List.lookup refId tableMap).getD refId

/-! ## Type correction (`WorkbenchParser._extract_column`, lines 82–117) -/

/-- The heuristic type-correction pass applied to the
(column name, raw type, auto-increment flag) triple. -/
def correct_column_type (colName colType : String) (isAutoInc : Bool) : String :=
  let ct := if isAutoInc && (pyLower colType == "varchar") then "BIGINT" else colType
  let nl := pyLower colName
  if pyLower ct == "varchar" then
    if pyEndsWith nl "_id" || nl == "id" then "BIGINT"
    else if pyContains nl "fecha" || pyContains nl "date" then
      if pyContains nl "hora" || pyContains nl "time" || pyContains nl "creacion" ||
          pyContains nl "reservacion" then "DATETIME"
      else "DATE"
    else if pyContains nl "hora" || pyContains nl "time" then "TIME"
    else if nl == "edad" || nl == "age" || nl == "years" then "INT"
    else if pyContains nl "precio" || pyContains nl "costo" || pyContains nl "price" ||
        pyContains nl "cost" then "DECIMAL"
    else ct
  else ct

/-- Raw type resolution preceding the correction: prefer `simpleType` over
`userType`, default to `varchar`, keep only the last dot-separated segment. -/
def resolve_raw_type (simpleType userType : String) : String :=
  let ct := if simpleType != "" then simpleType else userType
  let ct := if ct == "" then "varchar" else ct
  if ct.data.contains '.' then ⟨(ct.data.reverse.takeWhile (fun c => c ≠ '.')).reverse⟩ else ct

/-! ## Migration emission (`LaravelGenerator._column_to_migration`) -/

/-- `type_map` of `_column_to_migration`. -/
def typeMapM : List (String × String) :=
  [("int", "integer"), ("integer", "integer"), ("tinyint", "tinyInteger"),
   ("smallint", "smallInteger"), ("mediumint", "mediumInteger"), ("bigint", "bigInteger"),
   ("varchar", "string"), ("char", "char"), ("text", "text"), ("mediumtext", "mediumText"),
   ("longtext", "longText"), ("decimal", "decimal"), ("float", "float"), ("double", "double"),
   ("boolean", "boolean"), ("bool", "boolean"), ("date", "date"), ("datetime", "dateTime"),
   ("timestamp", "timestamp"), ("time", "time"), ("year", "year"), ("json", "json"),
   ("enum", "enum"), ("blob", "binary"), ("binary", "binary")]

/-- `LaravelGenerator._is_foreign_key_column`. -/
def is_foreign_key_column (rels : List Relationship) (columnName : String)
    (tableName : Option String) : Bool :=
  rels.any (fun rel => rel.source_columns.contains columnName &&
      (match tableName with
       | none => true
       | some tn => rel.source_table == some tn)) ||
  (pyEndsWith columnName "_id" && columnName != "id")

/-- The length normalization of `_column_to_migration` (lines 451–457).
`Except.error ()` models the `ValueError` that `int(length)` raises when
the declared length passed the dashless-digits test but is not an integer
numeral (for example `"5-"` or `"1-2"`). -/
def migLength (length : String) : Except Unit String :=
  if length == "" || length == "-1" || !pyIsDigit (pyRemoveDashes length) then .ok "255"
  else
    match pyInt length with
    | none => .error ()
    | some v => if v < 0 then .ok "255" else .ok length

/-- Precision defaulting of the decimal branch (line 459). -/
def migPrecision (p : String) : String := if p != "" && pyIsDigit p then p else "8"

/-- Scale defaulting of the decimal branch (line 460). -/
def migScale (sc : String) : String := if sc != "" && pyIsDigit sc then sc else "2"

/-- `LaravelGenerator._column_to_migration`. Result `ok none` models the
Python `return None` (column skipped), `ok (some line)` the emitted
declaration, and `error ()` a `ValueError` escaping from `int(length)`. -/
def column_to_migration (rels : List Relationship) (tableName : String) (col : Column) :
    Except Unit (Option String) :=
  let name := col.name
  let colType := pyStrip (pyLower col.type)
  if is_foreign_key_column rels name (some tableName) then .ok none
  else
    let baseType := pyStrip (pySplitHead colType '(')
    let laravelType := (List.lookup baseType typeMapM).getD "string"
    if name == "id" then
      if baseType == "bigint" || baseType == "int" || baseType == "integer" then
        .ok (some "$table->id();")
      else .ok (some "$table->string('id');")
    else if name == "created_at" || name == "updated_at" then .ok none
    else if name == "deleted_at" then .ok none
    else
      let lineE : Except Unit String :=
        if laravelType == "string" || laravelType == "char" then
          match migLength col.length with
          | .error e => .error e
          | .ok len =>
              .ok ("$table->" ++ laravelType ++ "('" ++ name ++ "', " ++ len ++ ")")
        else if laravelType == "decimal" then
          .ok ("$table->decimal('" ++ name ++ "', " ++ migPrecision col.precision ++ ", " ++
            migScale col.scale ++ ")")
        else if laravelType == "integer" || laravelType == "bigInteger" ||
            laravelType == "tinyInteger" || laravelType == "smallInteger" ||
            laravelType == "mediumInteger" then
          .ok ("$table->" ++ laravelType ++ "('" ++ name ++ "')" ++
            (if col.auto_increment then "->autoIncrement()" else ""))
        else .ok ("$table->" ++ laravelType ++ "('" ++ name ++ "')")
      match lineE with
      | .error e => .error e
      | .ok line0 =>
        let line1 := line0 ++ (if !col.not_null && name != "id" then "->nullable()" else "")
        let line2 := line1 ++
          (if col.dflt != "" && col.dflt != "NULL" && col.dflt != "null" then
            (if laravelType == "string" || laravelType == "char" || laravelType == "text" ||
                laravelType == "mediumText" || laravelType == "longText" then
              "->default('" ++ col.dflt ++ "')"
            else "->default(" ++ col.dflt ++ ")")
          else "")
        let line3 := line2 ++
          (if pyContains (pyLower name) "email" && laravelType == "string" then "->unique()"
           else "")
        let line4 := line3 ++
          (if col.comment != "" then "->comment('" ++ pyEscapeQuotes col.comment ++ "')" else "")
        .ok (some (line4 ++ ";"))

/-! ## Controller validation rules (`LaravelGenerator._generate_validation_rules`) -/

/-- Python `f"{x}"` applied to a possibly-`None` table name. -/
def showOptPy : Option String → String
  | some s => s
  | none => "None"

/-- Python `sep.join(parts)`. -/
def pyJoin (sep : String) : List String → String
  | [] => ""
  | [x] => x
  | x :: xs => x ++ sep ++ pyJoin sep xs

/-- The `'|'`-joined rule for one (non-skipped) column, lines 799–833. -/
def validation_rule_for (rels : List Relationship) (tableName : String) (col : Column) :
    String :=
  let base := [if col.not_null then "required" else "nullable"]
  let ct := pyLower col.type
  let typed := base ++
    (if ["int", "tinyint", "smallint", "mediumint", "bigint"].contains ct then ["integer"]
     else if ["decimal", "float", "double"].contains ct then ["numeric"]
     else if ["varchar", "char", "text", "mediumtext", "longtext"].contains ct then
       ["string"] ++ (if col.length != "" then ["max:" ++ col.length] else [])
     else if ct == "date" then ["date"]
     else if ct == "datetime" || ct == "timestamp" then ["date"]
     else if ct == "boolean" then ["boolean"]
     else if ct == "json" then ["array"]
     else [])
  let fkPart :=
    match rels.find? (fun rel => rel.source_table == some tableName &&
        rel.source_columns.contains col.name) with
    | some rel => ["exists:" ++ showOptPy rel.target_table ++ "," ++
        (rel.target_columns.headD "id")]
    | none => []
  pyJoin "|" (typed ++ fkPart)

/-- `LaravelGenerator._generate_validation_rules`. -/
def generate_validation_rules (rels : List Relationship) (table : Table) : String :=
  let rules := (table.columns.filter
      (fun col => !(["id", "created_at", "updated_at", "deleted_at"].contains col.name))).map
    (fun col => "            '" ++ col.name ++ "' => '" ++
      validation_rule_for rels table.name col ++ "'")
  pyJoin ",\n" rules

/-! ## Dependency sort (`LaravelGenerator._sort_tables_by_dependencies`)

The Python `dependency_map` dict is modelled as an association list in key
insertion order; the per-table dependency `set` is modelled as a
duplicate-free list in insertion order (the claims proved below do not
depend on the iteration order of the set).  The `KeyError` raised by
`dependency_map[...]` on an unknown table name is modelled with
`Except.error (.keyError ...)`; the recursion of `visit` is driven by a
fuel parameter and `sortNames` supplies `keys.length + 1` fuel, which is
proved sufficient (`outOfFuel` is never returned). -/

inductive SortErr where
  | keyError (k : String)
  | outOfFuel
deriving DecidableEq

instance {ε α : Type} [DecidableEq ε] [DecidableEq α] : DecidableEq (Except ε α) := fun x y =>
  match x, y with
  | .error e, .error f =>
    if h : e = f then .isTrue (by rw [h]) else .isFalse (fun c => h (by cases c; rfl))
  | .error _, .ok _ => .isFalse (fun h => Except.noConfusion h)
  | .ok _, .error _ => .isFalse (fun h => Except.noConfusion h)
  | .ok a, .ok b =>
    if h : a = b then .isTrue (by rw [h]) else .isFalse (fun c => h (by cases c; rfl))

structure SortSt where
  visited : List String
  sorted : List String
deriving DecidableEq

abbrev DepMap := List (String × List String)

/-- Keys of `{table['name']: set() for table in self.tables}`: one key per
distinct name, in first-occurrence order. -/
def dictKeys : List String → List String
  | [] => []
  | n :: ns => n :: (dictKeys ns).filter (fun x => x != n)

/-- `dependency_map[source].add(target)`: raises `KeyError source` when the
source is not a key. -/
def addEdge : DepMap → String → String → Except SortErr DepMap
  | [], s, _ => .error (.keyError s)
  | (k, l) :: rest, s, t =>
    if k == s then .ok ((k, if l.contains t then l else l ++ [t]) :: rest)
    else
      match addEdge rest s t with
      | .ok rest' => .ok ((k, l) :: rest')
      | .error e => .error e

/-- The truthiness test `if source and target:` — both present and nonempty. -/
def relTruthy (rel : Relationship) : Option (String × String) :=
  match rel.source_table, rel.target_table with
  | some s, some t => if s != "" && t != "" then some (s, t) else none
  | _, _ => none

/-- Building `dependency_map` (lines 239–246). -/
def buildDepMap (tables : List Table) (rels : List Relationship) : Except SortErr DepMap :=
  rels.foldlM
    (fun m rel =>
      match relTruthy rel with
      | some (s, t) => addEdge m s t
      | none => .ok m)
    ((dictKeys (tables.map Table.name)).map (fun n => (n, ([] : List String))))

/-- The recursive `visit` closure (lines 251–259), fuel-indexed. -/
def visit : Nat → DepMap → String → SortSt → Except SortErr SortSt
  | 0, _, _, _ => .error .outOfFuel
  | Nat.succ fuel, m, t, st =>
    if st.visited.contains t then .ok st
    else
      match List.lookup t m with
      | none => .error (.keyError t)
      | some ds =>
        match ds.foldlM (fun s d => visit fuel m d s) ⟨t :: st.visited, st.sorted⟩ with
        | .error e => .error e
        | .ok st2 => .ok ⟨st2.visited, st2.sorted ++ [t]⟩

/-- The sorted table-name list (lines 248–262). -/
def sortNames (tables : List Table) (rels : List Relationship) :
    Except SortErr (List String) :=
  match buildDepMap tables rels with
  | .error e => .error e
  | .ok m =>
    let keys := m.map Prod.fst
    match keys.foldlM (fun st k => visit (keys.length + 1) m k st) (⟨[], []⟩ : SortSt) with
    | .error e => .error e
    | .ok st => .ok st.sorted

/-- `LaravelGenerator._sort_tables_by_dependencies` (lines 234–270): the
final reordering of the table records. -/
def sort_tables_by_dependencies (tables : List Table) (rels : List Relationship) :
    Except SortErr (List Table) :=
  match sortNames tables rels with
  | .error e => .error e
  | .ok ns => .ok ((ns.map (fun n => tables.filter (fun tb => tb.name == n))).flatten)

/-- The (truthy) foreign-key edge relation of a schema: `relEdge rels a b`
holds when some relationship has source table `a` and target table `b`. -/
def relEdge (rels : List Relationship) (a b : String) : Prop :=
  ∃ rel ∈ rels, relTruthy rel = some (a, b)

/-- Edge relation read off a dependency map. -/
def mapEdge (m : DepMap) (a b : String) : Prop :=
  ∃ l, List.lookup a m = some l ∧ b ∈ l

/-- Position of an element in a list (the claims speak about positions in
the sorted table list). -/
def posOf (l : List String) (x : String) : Nat :=
  match l with
  | [] => 0
  | a :: t => if a = x then 0 else posOf t x + 1

/-- `b` occurs (strictly) before `a` in `l`. -/
def BeforeL (l : List String) (b a : String) : Prop :=
  ∃ l₁ l₂ l₃, l = l₁ ++ b :: l₂ ++ a :: l₃

/-- A table name taking part in no (truthy) relationship at all. -/
def relFreeB (rels : List Relationship) (n : String) : Bool :=
  rels.all (fun r =>
    match relTruthy r with
    | some (s, t) => !(s == n) && !(t == n)
    | none => true)

/-! ## Basic lemmas about the string primitives -/

lemma str_ext {s t : String} (h : s.data = t.data) : s = t := by
  cases s; cases t; exact congrArg String.mk h

@[simp] lemma mk_data (l : List Char) : (String.mk l).data = l := rfl

@[simp] lemma data_append (a b : String) : (a ++ b).data = a.data ++ b.data := rfl

@[simp] lemma isPrefixOf_nil_left (l : List Char) :
    List.isPrefixOf ([] : List Char) l = true := by cases l <;> rfl

@[simp] lemma isPrefixOf_cons_nil (a : Char) (as : List Char) :
    List.isPrefixOf (a :: as) [] = false := rfl

@[simp] lemma isPrefixOf_cons_cons (a b : Char) (as bs : List Char) :
    List.isPrefixOf (a :: as) (b :: bs) = (a == b && List.isPrefixOf as bs) := rfl

lemma isPrefixOf_iff (p l : List Char) : p.isPrefixOf l = true ↔ ∃ t, l = p ++ t := by
  induction p generalizing l with
  | nil => simp
  | cons a as ih =>
    cases l with
    | nil => simp
    | cons b bs =>
      simp only [isPrefixOf_cons_cons, Bool.and_eq_true, beq_iff_eq, ih, List.cons_append,
        List.cons.injEq]
      constructor
      · rintro ⟨rfl, t, rfl⟩; exact ⟨t, rfl, rfl⟩
      · rintro ⟨t, rfl, rfl⟩; exact ⟨rfl, t, rfl⟩

lemma pyEndsWith_iff (w suf : String) :
    pyEndsWith w suf = true ↔ ∃ t, w.data.reverse = suf.data.reverse ++ t :=
  isPrefixOf_iff _ _

/-- The 26 lowercase ASCII letters. -/
def lcChars : List Char :=
  ['a', 'b', 'c', 'd', 'e', 'f', 'g', 'h', 'i', 'j', 'k', 'l', 'm',
   'n', 'o', 'p', 'q', 'r', 's', 't', 'u', 'v', 'w', 'x', 'y', 'z']

lemma lc_toLower : ∀ c ∈ lcChars, Char.toLower c = c := by decide

lemma map_toLower_id {l : List Char} (h : ∀ c ∈ l, c ∈ lcChars) :
    l.map Char.toLower = l := by
  induction l with
  | nil => rfl
  | cons c t ih =>
    simp only [List.map_cons, List.cons.injEq]
    exact ⟨lc_toLower c (h c (List.mem_cons_self c t)),
      ih (fun x hx => h x (List.mem_cons_of_mem c hx))⟩

lemma pyLower_id {s : String} (h : ∀ c ∈ s.data, c ∈ lcChars) : pyLower s = s :=
  str_ext (map_toLower_id h)

/-! ## C3: type correction is a pure function of the triple -/

/-- C3: type correction is a deterministic function of the
(column name, raw type, auto-increment) triple — two corrections of equal
triples agree — and every column named `user_id` with raw type `varchar`
is corrected to the 64-bit integer type `BIGINT`, whatever its
auto-increment flag. -/
theorem c3_type_correction_pure :
    (∀ (n t : String) (a : Bool) (n' t' : String) (a' : Bool),
      n = n' → t = t' → a = a' →
        correct_column_type n t a = correct_column_type n' t' a') ∧
    (∀ autoInc : Bool, correct_column_type "user_id" "varchar" autoInc = "BIGINT") := by
  constructor
  · rintro n t a n' t' a' rfl rfl rfl; rfl
  · intro b; cases b <;> decide

/-- Witness for C3 at concrete inputs. -/
theorem c3_type_correction_pure_witness :
    correct_column_type "user_id" "varchar" true = "BIGINT" ∧
    correct_column_type "edad" "VARCHAR" false = correct_column_type "edad" "VARCHAR" false :=
  ⟨c3_type_correction_pure.2 true,
   c3_type_correction_pure.1 "edad" "VARCHAR" false "edad" "VARCHAR" false rfl rfl rfl⟩

/-! ## C8: the camel/pascal round trip -/

/-- C8 (code bug): `to_camel_case`'s own docstring promises
`UserPosts -> userPosts`, so `camel(pascal(x)) == camel(x)` should hold for
lowercase multi-word identifiers; but `str.capitalize()` lowercases the rest
of the merged word, so `camel(pascal("user_posts")) = "userposts"` while
`camel("user_posts") = "userPosts"`. -/
theorem c8_camel_pascal_roundtrip_fails :
    to_camel_case (to_studly_case "user_posts") = "userposts" ∧
    to_camel_case "user_posts" = "userPosts" ∧
    ("userposts" : String) ≠ "userPosts" :=
  ⟨by decide, by decide, by decide⟩

/-! ## C10: the two singularizers -/

/-- C10 counterexample: the generator's `_singular` and the helper module's
`to_singular` disagree on `"roles"` (`"rol"` vs `"role"`), so the two
singularizations are not equivalent. -/
theorem c10_singular_not_equivalent :
    gen_singular "roles" = "rol" ∧ to_singular "roles" = "role" ∧
    gen_singular "roles" ≠ to_singular "roles" :=
  ⟨by decide, by decide, by decide⟩

lemma endsWith_of_endsWith_extra (suf suf' : String) (c : Char) {w : String}
    (hsuf : suf.data.reverse = suf'.data.reverse ++ [c])
    (h : pyEndsWith w suf = true) : pyEndsWith w suf' = true := by
  rcases (pyEndsWith_iff w suf).mp h with ⟨t, ht⟩
  exact (pyEndsWith_iff w suf').mpr ⟨c :: t, by rw [ht, hsuf, List.append_assoc]; rfl⟩

/-- C10 amended: the two singularizers agree — both just strip the final
`s` — on every word of length `> 1` that ends in `s` but not in `es` and
belongs to neither irregular table; in general they are not equivalent
(see the counterexample). -/
theorem c10_singular_agree_plain_s (w : String)
    (hes1 : List.lookup (pyLower w) irregularsEs = none)
    (hes2 : List.lookup (pyLower w) irregularSingular = none)
    (hs : pyEndsWith w "s" = true)
    (hes : pyEndsWith w "es" = false)
    (hlen : 1 < w.length) :
    gen_singular w = to_singular w := by
  have hies : pyEndsWith w "ies" = false := by
    cases h : pyEndsWith w "ies" with
    | false => rfl
    | true => rw [endsWith_of_endsWith_extra "ies" "es" 'i' (by decide) h] at hes; cases hes
  have hves : pyEndsWith w "ves" = false := by
    cases h : pyEndsWith w "ves" with
    | false => rfl
    | true => rw [endsWith_of_endsWith_extra "ves" "es" 'v' (by decide) h] at hes; cases hes
  have h5 : pyEndsWithAny w ["ses", "xes", "zes", "ches", "shes"] = false := by
    cases h : pyEndsWithAny w ["ses", "xes", "zes", "ches", "shes"] with
    | false => rfl
    | true =>
      simp only [pyEndsWithAny, List.any_eq_true] at h
      rcases h with ⟨x, hx, hxe⟩
      simp only [List.mem_cons, List.not_mem_nil, or_false] at hx
      have hwes : pyEndsWith w "es" = true := by
        rcases hx with rfl | rfl | rfl | rfl | rfl
        · exact endsWith_of_endsWith_extra "ses" "es" 's' (by decide) hxe
        · exact endsWith_of_endsWith_extra "xes" "es" 'x' (by decide) hxe
        · exact endsWith_of_endsWith_extra "zes" "es" 'z' (by decide) hxe
        · exact endsWith_of_endsWith_extra "hes" "es" 'h' (by decide)
            (endsWith_of_endsWith_extra "ches" "hes" 'c' (by decide) hxe)
        · exact endsWith_of_endsWith_extra "hes" "es" 'h' (by decide)
            (endsWith_of_endsWith_extra "shes" "hes" 's' (by decide) hxe)
      rw [hwes] at hes; cases hes
  simp only [gen_singular, to_singular, hes1, hes2, hies, hes, hves, h5, hs,
    Bool.false_and, Bool.true_and, decide_eq_true hlen, if_false, if_true,
    Bool.false_eq_true, if_true]

/-- Witness for the amended C10 at `w = "cats"`. -/
theorem c10_singular_agree_plain_s_witness :
    gen_singular "cats" = to_singular "cats" :=
  c10_singular_agree_plain_s "cats" (by decide) (by decide) (by decide) (by decide) (by decide)

/-! ## C7: pluralize/singularize round trip -/

/-- No key of the singular irregular table ends in `s`, so any word whose
last character is `s` misses the table. -/
lemma lookup_sg_none {q : String} (hq : q.data.reverse.head? = some 's') :
    List.lookup q irregularSingular = none := by
  have hne : ∀ y : String, y.data.reverse.head? ≠ some 's' → (q == y) = false := fun y hy =>
    beq_eq_false_iff_ne.mpr (fun h => hy (h ▸ hq))
  simp only [irregularSingular, List.lookup, hne "people" (by decide), hne "men" (by decide),
    hne "women" (by decide), hne "children" (by decide), hne "teeth" (by decide),
    hne "feet" (by decide), hne "mice" (by decide), hne "geese" (by decide)]

lemma pyLower_rev_head {p : String} {c : Char} {t : List Char}
    (h : p.data.reverse = c :: t) : (pyLower p).data.reverse.head? = some c.toLower := by
  have hmap : (pyLower p).data.reverse = (p.data.reverse).map Char.toLower := by
    simp [pyLower]
  rw [hmap, h]; rfl

lemma str_len_data (s : String) : s.length = s.data.length := rfl

/-- Round trip after the consonant+`y` pluralization rule. -/
lemma singular_after_y (w : String) (t : List Char) (hrev : w.data.reverse = 'y' :: t)
    (ht : t ≠ []) : to_singular (pyDropRight w 1 ++ "ies") = w := by
  have hdr : (pyDropRight w 1).data = t.reverse := by
    simp [pyDropRight, hrev]
  have hpd : (pyDropRight w 1 ++ "ies").data = t.reverse ++ ['i', 'e', 's'] := by
    rw [data_append, hdr]
  have hprev : (pyDropRight w 1 ++ "ies").data.reverse = 's' :: 'e' :: 'i' :: t := by
    rw [hpd]; simp
  have hlk : List.lookup (pyLower (pyDropRight w 1 ++ "ies")) irregularSingular = none :=
    lookup_sg_none (pyLower_rev_head hprev)
  have e1 : pyEndsWith (pyDropRight w 1 ++ "ies") "ies" = true := by
    show List.isPrefixOf ['s', 'e', 'i'] ((pyDropRight w 1 ++ "ies").data.reverse) = true
    rw [hprev]; simp
  have hlen : 3 < (pyDropRight w 1 ++ "ies").length := by
    rw [str_len_data, hpd]
    simp only [List.length_append, List.length_reverse, List.length_cons, List.length_nil]
    have : 0 < t.length := List.length_pos.mpr ht
    omega
  simp only [to_singular, hlk, e1, decide_eq_true hlen, Bool.and_self, if_true]
  apply str_ext
  rw [data_append]
  show ((pyDropRight w 1 ++ "ies").data.reverse.drop 3).reverse ++ ['y'] = w.data
  rw [hprev]
  show t.reverse ++ ['y'] = w.data
  rw [← List.reverse_reverse w.data, hrev]; simp

/-- Round trip after the `+es` rule for a word ending in `s`, `x` or `z`. -/
lemma singular_after_es (w : String) (c : Char) (t : List Char)
    (hrev : w.data.reverse = c :: t) (hc : c = 's' ∨ c = 'x' ∨ c = 'z') :
    to_singular (w ++ "es") = w := by
  have hprev : (w ++ "es").data.reverse = 's' :: 'e' :: c :: t := by
    rw [data_append]; simp [hrev]
  have hlk : List.lookup (pyLower (w ++ "es")) irregularSingular = none :=
    lookup_sg_none (pyLower_rev_head hprev)
  have hci : (('i' : Char) == c) = false := by rcases hc with rfl | rfl | rfl <;> decide
  have hcv : (('v' : Char) == c) = false := by rcases hc with rfl | rfl | rfl <;> decide
  have e1 : pyEndsWith (w ++ "es") "ies" = false := by
    show List.isPrefixOf ['s', 'e', 'i'] ((w ++ "es").data.reverse) = false
    rw [hprev]; simp [hci]
  have e2 : pyEndsWith (w ++ "es") "ves" = false := by
    show List.isPrefixOf ['s', 'e', 'v'] ((w ++ "es").data.reverse) = false
    rw [hprev]; simp [hcv]
  have e3 : pyEndsWithAny (w ++ "es") ["ses", "xes", "zes", "ches", "shes"] = true := by
    apply List.any_eq_true.mpr
    rcases hc with rfl | rfl | rfl
    · exact ⟨"ses", by decide, by
        show List.isPrefixOf ['s', 'e', 's'] ((w ++ "es").data.reverse) = true
        rw [hprev]; simp⟩
    · exact ⟨"xes", by decide, by
        show List.isPrefixOf ['s', 'e', 'x'] ((w ++ "es").data.reverse) = true
        rw [hprev]; simp⟩
    · exact ⟨"zes", by decide, by
        show List.isPrefixOf ['s', 'e', 'z'] ((w ++ "es").data.reverse) = true
        rw [hprev]; simp⟩
  simp only [to_singular, hlk, e1, e2, e3, Bool.false_and, Bool.false_eq_true, if_false,
    if_true]
  apply str_ext
  show ((w ++ "es").data.reverse.drop 2).reverse = w.data
  rw [hprev]
  show (c :: t).reverse = w.data
  rw [← List.reverse_reverse w.data, hrev]

/-- Round trip after the `+es` rule for a word ending in `ch` or `sh`. -/
lemma singular_after_hes (w : String) (c : Char) (t : List Char)
    (hrev : w.data.reverse = 'h' :: c :: t) (hc : c = 'c' ∨ c = 's') :
    to_singular (w ++ "es") = w := by
  have hprev : (w ++ "es").data.reverse = 's' :: 'e' :: 'h' :: c :: t := by
    rw [data_append]; simp [hrev]
  have hlk : List.lookup (pyLower (w ++ "es")) irregularSingular = none :=
    lookup_sg_none (pyLower_rev_head hprev)
  have e1 : pyEndsWith (w ++ "es") "ies" = false := by
    show List.isPrefixOf ['s', 'e', 'i'] ((w ++ "es").data.reverse) = false
    rw [hprev]; simp
  have e2 : pyEndsWith (w ++ "es") "ves" = false := by
    show List.isPrefixOf ['s', 'e', 'v'] ((w ++ "es").data.reverse) = false
    rw [hprev]; simp
  have e3 : pyEndsWithAny (w ++ "es") ["ses", "xes", "zes", "ches", "shes"] = true := by
    apply List.any_eq_true.mpr
    rcases hc with rfl | rfl
    · exact ⟨"ches", by decide, by
        show List.isPrefixOf ['s', 'e', 'h', 'c'] ((w ++ "es").data.reverse) = true
        rw [hprev]; simp⟩
    · exact ⟨"shes", by decide, by
        show List.isPrefixOf ['s', 'e', 'h', 's'] ((w ++ "es").data.reverse) = true
        rw [hprev]; simp⟩
  simp only [to_singular, hlk, e1, e2, e3, Bool.false_and, Bool.false_eq_true, if_false,
    if_true]
  apply str_ext
  show ((w ++ "es").data.reverse.drop 2).reverse = w.data
  rw [hprev]
  show ('h' :: c :: t).reverse = w.data
  rw [← List.reverse_reverse w.data, hrev]

/-- Round trip after the `f → ves` rule. -/
lemma singular_after_f (w : String) (t : List Char) (hrev : w.data.reverse = 'f' :: t) :
    to_singular (pyDropRight w 1 ++ "ves") = w := by
  have hdr : (pyDropRight w 1).data = t.reverse := by
    simp [pyDropRight, hrev]
  have hpd : (pyDropRight w 1 ++ "ves").data = t.reverse ++ ['v', 'e', 's'] := by
    rw [data_append, hdr]
  have hprev : (pyDropRight w 1 ++ "ves").data.reverse = 's' :: 'e' :: 'v' :: t := by
    rw [hpd]; simp
  have hlk : List.lookup (pyLower (pyDropRight w 1 ++ "ves")) irregularSingular = none :=
    lookup_sg_none (pyLower_rev_head hprev)
  have e1 : pyEndsWith (pyDropRight w 1 ++ "ves") "ies" = false := by
    show List.isPrefixOf ['s', 'e', 'i'] ((pyDropRight w 1 ++ "ves").data.reverse) = false
    rw [hprev]; simp
  have e2 : pyEndsWith (pyDropRight w 1 ++ "ves") "ves" = true := by
    show List.isPrefixOf ['s', 'e', 'v'] ((pyDropRight w 1 ++ "ves").data.reverse) = true
    rw [hprev]; simp
  simp only [to_singular, hlk, e1, e2, Bool.false_and, Bool.false_eq_true, if_false, if_true]
  apply str_ext
  rw [data_append]
  show ((pyDropRight w 1 ++ "ves").data.reverse.drop 3).reverse ++ ['f'] = w.data
  rw [hprev]
  show t.reverse ++ ['f'] = w.data
  rw [← List.reverse_reverse w.data, hrev]; simp

/-- Round trip after the default `+s` rule, for words that do not end in
`ie`, `ve`, `se`, `xe`, `ze`, `che` or `she`. -/
lemma singular_after_s (w : String) (hne : w.data ≠ [])
    (hie : pyEndsWith w "ie" = false) (hve : pyEndsWith w "ve" = false)
    (hse : pyEndsWith w "se" = false) (hxe : pyEndsWith w "xe" = false)
    (hze : pyEndsWith w "ze" = false) (hche : pyEndsWith w "che" = false)
    (hshe : pyEndsWith w "she" = false) :
    to_singular (w ++ "s") = w := by
  have hprev : (w ++ "s").data.reverse = 's' :: w.data.reverse := by
    rw [data_append]; simp
  have hlk : List.lookup (pyLower (w ++ "s")) irregularSingular = none :=
    lookup_sg_none (pyLower_rev_head hprev)
  have e1 : pyEndsWith (w ++ "s") "ies" = false := by
    show List.isPrefixOf ['s', 'e', 'i'] ((w ++ "s").data.reverse) = false
    rw [hprev, isPrefixOf_cons_cons]
    simp only [beq_self_eq_true, Bool.true_and]
    exact hie
  have e2 : pyEndsWith (w ++ "s") "ves" = false := by
    show List.isPrefixOf ['s', 'e', 'v'] ((w ++ "s").data.reverse) = false
    rw [hprev, isPrefixOf_cons_cons]
    simp only [beq_self_eq_true, Bool.true_and]
    exact hve
  have eses : pyEndsWith (w ++ "s") "ses" = false := by
    show List.isPrefixOf ['s', 'e', 's'] ((w ++ "s").data.reverse) = false
    rw [hprev, isPrefixOf_cons_cons]
    simp only [beq_self_eq_true, Bool.true_and]
    exact hse
  have exes : pyEndsWith (w ++ "s") "xes" = false := by
    show List.isPrefixOf ['s', 'e', 'x'] ((w ++ "s").data.reverse) = false
    rw [hprev, isPrefixOf_cons_cons]
    simp only [beq_self_eq_true, Bool.true_and]
    exact hxe
  have ezes : pyEndsWith (w ++ "s") "zes" = false := by
    show List.isPrefixOf ['s', 'e', 'z'] ((w ++ "s").data.reverse) = false
    rw [hprev, isPrefixOf_cons_cons]
    simp only [beq_self_eq_true, Bool.true_and]
    exact hze
  have eches : pyEndsWith (w ++ "s") "ches" = false := by
    show List.isPrefixOf ['s', 'e', 'h', 'c'] ((w ++ "s").data.reverse) = false
    rw [hprev, isPrefixOf_cons_cons]
    simp only [beq_self_eq_true, Bool.true_and]
    exact hche
  have eshes : pyEndsWith (w ++ "s") "shes" = false := by
    show List.isPrefixOf ['s', 'e', 'h', 's'] ((w ++ "s").data.reverse) = false
    rw [hprev, isPrefixOf_cons_cons]
    simp only [beq_self_eq_true, Bool.true_and]
    exact hshe
  have e3 : pyEndsWithAny (w ++ "s") ["ses", "xes", "zes", "ches", "shes"] = false := by
    simp only [pyEndsWithAny, List.any_cons, List.any_nil, eses, exes, ezes, eches, eshes,
      Bool.or_false]
  have e4 : pyEndsWith (w ++ "s") "s" = true := by
    show List.isPrefixOf ['s'] ((w ++ "s").data.reverse) = true
    rw [hprev]; simp
  have hlen : 1 < (w ++ "s").length := by
    rw [str_len_data, data_append, List.length_append,
      show ("s" : String).data.length = 1 from rfl]
    have : 0 < w.data.length := List.length_pos.mpr hne
    omega
  simp only [to_singular, hlk, e1, e2, e3, e4, decide_eq_true hlen, Bool.false_and,
    Bool.false_eq_true, if_false, Bool.and_self, if_true]
  apply str_ext
  show ((w ++ "s").data.reverse.drop 1).reverse = w.data
  rw [hprev]
  show (w.data.reverse).reverse = w.data
  exact List.reverse_reverse _

/-- C7 counterexample: for the `fe`-rule word `"knife"` the round trip
fails: `to_plural "knife" = "knives"` but `to_singular "knives" = "knif"`. -/
theorem c7_roundtrip_counterexample :
    to_plural "knife" = "knives" ∧ to_singular "knives" = "knif" ∧
    to_singular (to_plural "knife") ≠ "knife" :=
  ⟨by decide, by decide, by decide⟩

/-- C7 amended: `to_singular (to_plural w) = w` for every nonempty word
not in the irregular table and not ending in one of the ambiguous endings
`fe`, `ie`, `ve`, `se`, `xe`, `ze`, `che`, `she` — this covers all words
handled by the consonant+`y`, `s`/`x`/`z`/`ch`/`sh`, `f` and default
rules; the `fe` rule (and default-rule words whose `+s` plural collides
with an `es`-stripping singular rule) do not round trip. -/
theorem c7_roundtrip_amended (w : String)
    (hne : w.data ≠ [])
    (hirr : List.lookup (pyLower w) irregularPlural = none)
    (hfe : pyEndsWith w "fe" = false)
    (hie : pyEndsWith w "ie" = false)
    (hve : pyEndsWith w "ve" = false)
    (hse : pyEndsWith w "se" = false)
    (hxe : pyEndsWith w "xe" = false)
    (hze : pyEndsWith w "ze" = false)
    (hche : pyEndsWith w "che" = false)
    (hshe : pyEndsWith w "she" = false) :
    to_singular (to_plural w) = w := by
  rw [to_plural, hirr]
  cases hb1 : (pyEndsWith w "y" && decide (1 < w.length) &&
      !(vowels.contains (secondLast w))) with
  | true =>
    simp only [if_true]
    simp only [Bool.and_eq_true] at hb1
    obtain ⟨⟨hy, hlen⟩, _⟩ := hb1
    rcases (pyEndsWith_iff w "y").mp hy with ⟨t, ht⟩
    have hlen' : 1 < w.data.length := of_decide_eq_true hlen
    have htne : t ≠ [] := by
      intro h
      subst h
      have ht' : w.data.reverse = ['y'] := ht
      have hlc : w.data.length = 1 := by
        have h2 := congrArg List.length ht'
        simpa using h2
      omega
    exact singular_after_y w t ht htne
  | false =>
    simp only [Bool.false_eq_true, if_false]
    cases hb2 : pyEndsWithAny w ["s", "ss", "x", "z", "ch", "sh"] with
    | true =>
      simp only [if_true]
      rcases List.any_eq_true.mp hb2 with ⟨x, hx, hxe'⟩
      simp only [List.mem_cons, List.not_mem_nil, or_false] at hx
      rcases hx with rfl | rfl | rfl | rfl | rfl | rfl
      · rcases (pyEndsWith_iff w "s").mp hxe' with ⟨t, ht⟩
        exact singular_after_es w 's' t ht (Or.inl rfl)
      · rcases (pyEndsWith_iff w "ss").mp hxe' with ⟨t, ht⟩
        exact singular_after_es w 's' ('s' :: t) ht (Or.inl rfl)
      · rcases (pyEndsWith_iff w "x").mp hxe' with ⟨t, ht⟩
        exact singular_after_es w 'x' t ht (Or.inr (Or.inl rfl))
      · rcases (pyEndsWith_iff w "z").mp hxe' with ⟨t, ht⟩
        exact singular_after_es w 'z' t ht (Or.inr (Or.inr rfl))
      · rcases (pyEndsWith_iff w "ch").mp hxe' with ⟨t, ht⟩
        exact singular_after_hes w 'c' t ht (Or.inl rfl)
      · rcases (pyEndsWith_iff w "sh").mp hxe' with ⟨t, ht⟩
        exact singular_after_hes w 's' t ht (Or.inr rfl)
    | false =>
      simp only [Bool.false_eq_true, if_false]
      cases hb3 : pyEndsWith w "f" with
      | true =>
        simp only [if_true]
        rcases (pyEndsWith_iff w "f").mp hb3 with ⟨t, ht⟩
        exact singular_after_f w t ht
      | false =>
        simp only [Bool.false_eq_true, if_false, hfe]
        exact singular_after_s w hne hie hve hse hxe hze hche hshe

/-- Witness for the amended C7 at the claim's own example `"category"`. -/
theorem c7_roundtrip_amended_witness :
    to_singular (to_plural "category") = "category" :=
  c7_roundtrip_amended "category" (by decide) (by decide) (by decide) (by decide) (by decide)
    (by decide) (by decide) (by decide) (by decide) (by decide)

/-! ## Lemmas about `migLength` and migration emission -/

@[simp] lemma str_append_empty (s : String) : s ++ "" = s := str_ext (by simp)

lemma strFind_nil (hay : List Char) : strFind [] hay = true := by
  cases hay <;> simp [strFind]

/-- A searched-for segment sitting inside a list is found. -/
lemma strFind_append_left (pre : List Char) {ndl t : List Char} (h : strFind ndl t = true) :
    strFind ndl (pre ++ t) = true := by
  induction pre with
  | nil => simpa using h
  | cons p ps ih =>
    show (List.isPrefixOf ndl (p :: (ps ++ t)) || strFind ndl (ps ++ t)) = true
    rw [ih]
    simp

lemma strFind_append (pre ndl post : List Char) : strFind ndl (pre ++ (ndl ++ post)) = true := by
  induction pre with
  | nil =>
    cases hn : ndl with
    | nil => simp [strFind_nil]
    | cons n nt =>
      show strFind (n :: nt) ((n :: nt) ++ post) = true
      show (List.isPrefixOf (n :: nt) (n :: (nt ++ post)) || _) = true
      rw [(isPrefixOf_iff (n :: nt) (n :: (nt ++ post))).mpr ⟨post, by simp⟩]
      simp
  | cons p ps ih =>
    show (List.isPrefixOf ndl (p :: (ps ++ (ndl ++ post))) || strFind ndl (ps ++ (ndl ++ post)))
        = true
    rw [ih]
    simp

lemma pyIsDigit_no_dash {len : String} (h : pyIsDigit len = true) :
    pyRemoveDashes len = len := by
  simp only [pyIsDigit, Bool.and_eq_true, List.all_eq_true] at h
  apply str_ext
  simp only [pyRemoveDashes, mk_data]
  apply List.filter_eq_self.mpr
  intro c hc
  have hcd := h.2 c hc
  simp only [bne_iff_ne, ne_eq]
  rintro rfl
  exact absurd hcd (by decide)

lemma pyInt_of_digits {len : String} (h : pyIsDigit len = true) :
    pyInt len = some ((digitsVal len.data : Nat) : Int) := by
  have h' : (!len.data.isEmpty && len.data.all Char.isDigit) = true := h
  simp only [Bool.and_eq_true, List.all_eq_true] at h'
  unfold pyInt
  split
  · next rest heq =>
    exfalso
    have := h'.2 '-' (by rw [heq]; exact List.mem_cons_self _ _)
    exact absurd this (by decide)
  · next _ _ =>
    have h2 : (!len.data.isEmpty && len.data.all Char.isDigit) = true := h
    simp [h2]

/-- The four-way behaviour of the length normalization, proved below as the
amended C4. -/
lemma migLength_digit {len : String} (h : pyIsDigit len = true) :
    migLength len = .ok len := by
  have h255 : (len == "") = false := by
    apply beq_eq_false_iff_ne.mpr
    rintro rfl
    exact absurd h (by decide)
  have hm1 : (len == "-1") = false := by
    apply beq_eq_false_iff_ne.mpr
    rintro rfl
    exact absurd h (by decide)
  unfold migLength
  rw [pyIsDigit_no_dash h, h255, hm1, h, pyInt_of_digits h]
  have : ¬ (((digitsVal len.data : Nat) : Int) < 0) := Int.not_lt.mpr (Int.natCast_nonneg _)
  simp [this]

lemma migLength_default {len : String}
    (h : (len == "" || len == "-1" || !pyIsDigit (pyRemoveDashes len)) = true) :
    migLength len = .ok "255" := by
  unfold migLength
  rw [h]
  rfl

lemma migLength_neg {len : String} {v : Int} (hm1 : len ≠ "-1")
    (hdig : pyIsDigit (pyRemoveDashes len) = true) (hint : pyInt len = some v) (hv : v < 0) :
    migLength len = .ok "255" := by
  have hne : (len == "") = false := by
    apply beq_eq_false_iff_ne.mpr
    rintro rfl
    exact absurd hdig (by decide)
  unfold migLength
  rw [hne, beq_eq_false_iff_ne.mpr hm1, hdig, hint]
  simp [hv]

lemma migLength_valueError {len : String} (hm1 : len ≠ "-1")
    (hdig : pyIsDigit (pyRemoveDashes len) = true) (hint : pyInt len = none) :
    migLength len = .error () := by
  have hne : (len == "") = false := by
    apply beq_eq_false_iff_ne.mpr
    rintro rfl
    exact absurd hdig (by decide)
  unfold migLength
  rw [hne, beq_eq_false_iff_ne.mpr hm1, hdig, hint]
  rfl

/-- Emission of a plain (non-id, non-timestamp, non-foreign-key) column
whose mapped Laravel type is `string`: the emitted line is the factored
concatenation below, with the length passing through `migLength`. -/
lemma column_to_migration_string (rels : List Relationship) (tableName : String) (col : Column)
    (hfk : is_foreign_key_column rels col.name (some tableName) = false)
    (hid : (col.name == "id") = false)
    (hca : (col.name == "created_at") = false)
    (hua : (col.name == "updated_at") = false)
    (hda : (col.name == "deleted_at") = false)
    (hlt : (List.lookup (pyStrip (pySplitHead (pyStrip (pyLower col.type)) '(')) typeMapM).getD
        "string" = "string") :
    column_to_migration rels tableName col =
      (migLength col.length).map (fun len =>
        some ("$table->string('" ++ col.name ++ "', " ++ len ++ ")" ++
          (if !col.not_null then "->nullable()" else "") ++
          (if col.dflt != "" && col.dflt != "NULL" && col.dflt != "null" then
            "->default('" ++ col.dflt ++ "')" else "") ++
          (if pyContains (pyLower col.name) "email" then "->unique()" else "") ++
          (if col.comment != "" then "->comment('" ++ pyEscapeQuotes col.comment ++ "')"
           else "") ++ ";")) := by
  unfold column_to_migration
  simp only [hfk, hid, hca, hua, hda, hlt, Bool.false_eq_true, if_false]
  cases hm : migLength col.length with
  | error e =>
    cases e
    simp [hm, Except.map]
  | ok len =>
    simp only [hm, Except.map]
    simp [bne, hid]

lemma str_append_assoc (a b c : String) : (a ++ b) ++ c = a ++ (b ++ c) :=
  str_ext (by simp)

/-! ## C4: declared length normalization in migration emission -/

/-- C4 counterexample: for the non-numeric declared length `"5-"` (digits
plus a misplaced dash) the emission does not fall back to 255 — the
`int(length)` conversion raises `ValueError` instead. -/
theorem c4_migration_length_counterexample :
    column_to_migration [] "t" ⟨"title", "VARCHAR", "5-", "", "", true, false, "", ""⟩ =
      .error () ∧
    migLength "5-" = .error () :=
  ⟨by decide, by decide⟩

/-- C4 amended: the emitted length equals the declared length for every
digit-string length; it falls back to `255` when the declared length is
empty, the sentinel `-1`, fails the dashless digit test (any character
besides digits and `-`, or no digit at all), or parses to a negative
integer; but when the declared length consists of digits and dashes and is
not an integer numeral (e.g. `"5-"`), `int(length)` raises `ValueError`
instead of falling back.  The last clause ties the normalization to the
actual emission of a plain `varchar` column. -/
theorem c4_migration_length_amended :
    (∀ len : String, pyIsDigit len = true → migLength len = .ok len) ∧
    (∀ len : String, (len == "" || len == "-1" || !pyIsDigit (pyRemoveDashes len)) = true →
      migLength len = .ok "255") ∧
    (∀ (len : String) (v : Int), len ≠ "-1" → pyIsDigit (pyRemoveDashes len) = true →
      pyInt len = some v → v < 0 → migLength len = .ok "255") ∧
    (∀ len : String, len ≠ "-1" → pyIsDigit (pyRemoveDashes len) = true → pyInt len = none →
      migLength len = .error ()) ∧
    (∀ len : String,
      column_to_migration [] "tbl" ⟨"titulo", "varchar", len, "", "", true, false, "", ""⟩ =
        (migLength len).map (fun l => some ("$table->string('titulo', " ++ l ++ ");"))) := by
  refine ⟨fun len h => migLength_digit h, fun len h => migLength_default h,
    fun len v h1 h2 h3 h4 => migLength_neg h1 h2 h3 h4,
    fun len h1 h2 h3 => migLength_valueError h1 h2 h3, fun len => ?_⟩
  rw [column_to_migration_string [] "tbl"
    ⟨"titulo", "varchar", len, "", "", true, false, "", ""⟩ rfl rfl rfl rfl rfl rfl]
  cases migLength len with
  | error e => rfl
  | ok l =>
    show Except.ok (some _) = Except.ok (some _)
    have hmail : pyContains (pyLower "titulo") "email" = false := by decide
    simp only [Except.map, hmail, Bool.not_true, Bool.false_eq_true, if_false,
      bne_self_eq_false, Bool.false_and, str_append_empty]
    rw [show ("$table->string('" ++ ("titulo" : String) ++ "', " : String)
        = "$table->string('titulo', " from rfl,
      str_append_assoc _ (")" : String) (";" : String),
      show ((")" : String) ++ (";" : String)) = ");" from rfl]

/-- Witness for the amended C4: length `"50"` is kept verbatim, `""`,
`"-1"` and `"-7"` fall back to 255, `"5-"` raises, and the emission of a
`varchar` column with length `"50"` carries exactly `50`. -/
theorem c4_migration_length_amended_witness :
    migLength "50" = .ok "50" ∧ migLength "" = .ok "255" ∧ migLength "-1" = .ok "255" ∧
    migLength "-7" = .ok "255" ∧ migLength "5-" = .error () ∧
    column_to_migration [] "tbl" ⟨"titulo", "varchar", "50", "", "", true, false, "", ""⟩ =
      .ok (some "$table->string('titulo', 50);") :=
  ⟨c4_migration_length_amended.1 "50" (by decide),
   c4_migration_length_amended.2.1 "" (by decide),
   c4_migration_length_amended.2.1 "-1" (by decide),
   c4_migration_length_amended.2.2.1 "-7" (-7) (by decide) (by decide) (by decide) (by decide),
   c4_migration_length_amended.2.2.2.1 "5-" (by decide) (by decide) (by decide),
   (c4_migration_length_amended.2.2.2.2 "50").trans (by decide)⟩

/-! ## C5: malformed metadata at the emission sites -/

/-- C5 counterexample: the controller validation-rule builder propagates a
negative declared length verbatim — a `varchar` column with length `"-1"`
yields the rule `max:-1` instead of a documented default. -/
theorem c5_validation_counterexample :
    generate_validation_rules []
        ⟨"t", "", [⟨"title", "VARCHAR", "-1", "", "", true, false, "", ""⟩], [], false⟩ =
      "            'title' => 'required|string|max:-1'" ∧
    pyContains "            'title' => 'required|string|max:-1'" "max:-1" = true :=
  ⟨by decide, by decide⟩

/-- C5 amended: migration emission does replace malformed metadata with the
documented defaults (255 for length — modulo the `ValueError` edge noted in
C4 — and 8/2 for precision/scale), but the controller validation-rule
construction propagates every nonempty declared length verbatim into a
`max:` rule, including negative or non-numeric values. -/
theorem c5_validation_length_amended :
    (∀ len : String, (len == "" || len == "-1" || !pyIsDigit (pyRemoveDashes len)) = true →
      migLength len = .ok "255") ∧
    (∀ p : String, (p != "" && pyIsDigit p) = false → migPrecision p = "8") ∧
    (∀ sc : String, (sc != "" && pyIsDigit sc) = false → migScale sc = "2") ∧
    (∀ len : String, len ≠ "" →
      validation_rule_for [] "tbl" ⟨"titulo", "varchar", len, "", "", true, false, "", ""⟩ =
        "required|string|max:" ++ len) ∧
    (∀ len : String, len ≠ "" →
      generate_validation_rules []
          ⟨"tbl", "", [⟨"titulo", "varchar", len, "", "", true, false, "", ""⟩], [], false⟩ =
        "            'titulo' => 'required|string|max:" ++ len ++ "'") := by
  have hrule : ∀ len : String, len ≠ "" →
      validation_rule_for [] "tbl" ⟨"titulo", "varchar", len, "", "", true, false, "", ""⟩ =
        "required|string|max:" ++ len := by
    intro len hlen
    have hb : (len != "") = true := bne_iff_ne.mpr hlen
    have step : validation_rule_for [] "tbl"
        ⟨"titulo", "varchar", len, "", "", true, false, "", ""⟩ =
        pyJoin "|" ["required", "string", "max:" ++ len] := by
      unfold validation_rule_for
      rw [hb]
      rfl
    rw [step]
    show ("required" ++ "|") ++ (("string" ++ "|") ++ ("max:" ++ len)) = _
    rw [show (("required" : String) ++ "|") = "required|" from rfl,
      show (("string" : String) ++ "|") = "string|" from rfl,
      ← str_append_assoc "required|" "string|" ("max:" ++ len),
      show (("required|" : String) ++ "string|") = "required|string|" from rfl,
      ← str_append_assoc "required|string|" "max:" len]
    rfl
  refine ⟨fun len h => migLength_default h, ?_, ?_, hrule, ?_⟩
  · intro p h
    unfold migPrecision
    rw [h]
    rfl
  · intro sc h
    unfold migScale
    rw [h]
    rfl
  · intro len hlen
    have step : generate_validation_rules []
        ⟨"tbl", "", [⟨"titulo", "varchar", len, "", "", true, false, "", ""⟩], [], false⟩ =
        (("            '" ++ ("titulo" : String) ++ "' => '") ++
          validation_rule_for [] "tbl"
            ⟨"titulo", "varchar", len, "", "", true, false, "", ""⟩) ++ "'" := rfl
    rw [step, hrule len hlen]
    rw [show (("            '" : String) ++ "titulo" ++ "' => '")
        = "            'titulo' => '" from rfl,
      ← str_append_assoc "            'titulo' => '" "required|string|max:" len,
      show (("            'titulo' => '" : String) ++ "required|string|max:")
        = "            'titulo' => 'required|string|max:" from rfl,
      str_append_assoc _ len "'"]

/-- Witness for the amended C5 at length `"-1"`, precision `"x"`, scale `""`. -/
theorem c5_validation_length_amended_witness :
    migLength "-1" = .ok "255" ∧ migPrecision "x" = "8" ∧ migScale "" = "2" ∧
    validation_rule_for [] "tbl" ⟨"titulo", "varchar", "-1", "", "", true, false, "", ""⟩ =
      "required|string|max:" ++ "-1" ∧
    generate_validation_rules []
        ⟨"tbl", "", [⟨"titulo", "varchar", "-1", "", "", true, false, "", ""⟩], [], false⟩ =
      "            'titulo' => 'required|string|max:" ++ "-1" ++ "'" :=
  ⟨c5_validation_length_amended.1 "-1" (by decide),
   c5_validation_length_amended.2.1 "x" (by decide),
   c5_validation_length_amended.2.2.1 "" (by decide),
   c5_validation_length_amended.2.2.2.1 "-1" (by decide),
   c5_validation_length_amended.2.2.2.2 "-1" (by decide)⟩

/-! ## C6: uniqueness of email columns -/

/-- C6 counterexample: a directly emitted column named `email` whose mapped
type is not `string` (here a `char` column) receives no uniqueness
constraint. -/
theorem c6_email_unique_counterexample :
    column_to_migration [] "t" ⟨"email", "CHAR", "", "", "", true, false, "", ""⟩ =
      .ok (some "$table->char('email', 255);") ∧
    pyContains "$table->char('email', 255);" "->unique()" = false :=
  ⟨by decide, by decide⟩

/-- C6 amended: a directly emitted column whose name contains `email`
(case-insensitively) carries `->unique()` exactly when its mapped Laravel
type is `string` (the `varchar`/unknown-type mapping); email columns
mapping to `char`, `text` or any other type do not (see the
counterexample). -/
theorem c6_email_unique_amended (rels : List Relationship) (tableName : String) (col : Column)
    (line : String)
    (hok : column_to_migration rels tableName col = .ok (some line))
    (hmail : pyContains (pyLower col.name) "email" = true)
    (hstr : (List.lookup (pyStrip (pySplitHead (pyStrip (pyLower col.type)) '(')) typeMapM).getD
      "string" = "string") :
    pyContains line "->unique()" = true := by
  have hid : (col.name == "id") = false := by
    apply beq_eq_false_iff_ne.mpr
    intro h
    rw [h] at hmail
    exact absurd hmail (by decide)
  have hca : (col.name == "created_at") = false := by
    apply beq_eq_false_iff_ne.mpr
    intro h
    rw [h] at hmail
    exact absurd hmail (by decide)
  have hua : (col.name == "updated_at") = false := by
    apply beq_eq_false_iff_ne.mpr
    intro h
    rw [h] at hmail
    exact absurd hmail (by decide)
  have hda : (col.name == "deleted_at") = false := by
    apply beq_eq_false_iff_ne.mpr
    intro h
    rw [h] at hmail
    exact absurd hmail (by decide)
  have hfk : is_foreign_key_column rels col.name (some tableName) = false := by
    cases hfk' : is_foreign_key_column rels col.name (some tableName) with
    | false => rfl
    | true =>
      exfalso
      simp only [column_to_migration] at hok
      rw [hfk'] at hok
      simp at hok
  rw [column_to_migration_string rels tableName col hfk hid hca hua hda hstr] at hok
  cases hm : migLength col.length with
  | error e => rw [hm] at hok; cases hok
  | ok len =>
    rw [hm] at hok
    simp only [Except.map, Except.ok.injEq, Option.some.injEq] at hok
    rw [hmail] at hok
    subst hok
    show strFind ("->unique()".data) _ = true
    rw [if_pos rfl]
    simp only [data_append, List.append_assoc]
    apply strFind_append_left
    apply strFind_append_left
    apply strFind_append_left
    apply strFind_append_left
    apply strFind_append_left
    apply strFind_append_left
    apply strFind_append_left
    exact strFind_append [] _ _

/-- Witness for the amended C6: a `varchar` column named `email` does carry
the uniqueness constraint. -/
theorem c6_email_unique_amended_witness :
    pyContains "$table->string('email', 255)->unique();" "->unique()" = true :=
  c6_email_unique_amended [] "t" ⟨"email", "varchar", "", "", "", true, false, "", ""⟩
    "$table->string('email', 255)->unique();" (by decide) (by decide) (by decide)

/-! ## Generic lemmas about `foldlM` in the `Except` monad -/

lemma foldlM_except_cons {ε σ α : Type} (f : σ → α → Except ε σ) (s : σ) (a : α)
    (l : List α) :
    List.foldlM f s (a :: l) = (f s a).bind (fun s' => List.foldlM f s' l) := rfl

lemma foldlM_except_rel {ε σ α : Type} {f : σ → α → Except ε σ} {R : σ → σ → Prop}
    (hrefl : ∀ s, R s s) (htrans : ∀ a b c, R a b → R b c → R a c)
    (hstep : ∀ s a s', f s a = .ok s' → R s s') :
    ∀ (l : List α) (s s' : σ), List.foldlM f s l = .ok s' → R s s' := by
  intro l
  induction l with
  | nil =>
    intro s s' h
    obtain rfl := Except.ok.inj h
    exact hrefl s
  | cons a l ih =>
    intro s s' h
    rw [foldlM_except_cons] at h
    cases hf : f s a with
    | error e => rw [hf] at h; cases h
    | ok s1 =>
      rw [hf] at h
      exact htrans _ _ _ (hstep s a s1 hf) (ih s1 s' h)

lemma foldlM_except_safe {ε σ α : Type} {f : σ → α → Except ε σ} {b : ε} (I : σ → Prop)
    (hpres : ∀ s a s', I s → f s a = .ok s' → I s')
    (hsafe : ∀ s a, I s → f s a ≠ .error b) :
    ∀ (l : List α) (s : σ), I s → List.foldlM f s l ≠ .error b := by
  intro l
  induction l with
  | nil => intro s _ h; exact Except.noConfusion h
  | cons a l ih =>
    intro s hI h
    rw [foldlM_except_cons] at h
    cases hf : f s a with
    | error e =>
      rw [hf] at h
      have h' : e = b := Except.error.inj h
      exact hsafe s a hI (by rw [hf, h'])
    | ok s1 =>
      rw [hf] at h
      exact ih s1 (hpres s a s1 hI hf) h

lemma foldlM_except_ok {ε σ α : Type} {f : σ → α → Except ε σ} (I : σ → Prop)
    (hpres : ∀ s a s', I s → f s a = .ok s' → I s')
    (hok : ∀ s a, I s → ∃ s', f s a = .ok s') :
    ∀ (l : List α) (s : σ), I s → ∃ s', List.foldlM f s l = .ok s' ∧ I s' := by
  intro l
  induction l with
  | nil => intro s hI; exact ⟨s, rfl, hI⟩
  | cons a l ih =>
    intro s hI
    obtain ⟨s1, hs1⟩ := hok s a hI
    obtain ⟨s', hs', hI'⟩ := ih s1 (hpres s a s1 hI hs1)
    exact ⟨s', by rw [foldlM_except_cons, hs1]; exact hs', hI'⟩

/-! ## The termination measure of `visit` -/

def keysOf (m : DepMap) : List String := m.map Prod.fst

/-- Number of keys not yet visited. -/
def U (m : DepMap) (st : SortSt) : Nat :=
  ((keysOf m).filter (fun k => !(st.visited.contains k))).length

lemma contains_cons (t : String) (vis : List String) (k : String) :
    ((t :: vis).contains k) = (k == t || vis.contains k) := by
  show List.elem k (t :: vis) = _
  rw [List.elem_cons]
  cases h : k == t <;> simp

lemma contains_iff {l : List String} {a : String} : l.contains a = true ↔ a ∈ l :=
  List.elem_iff

lemma lookup_mem_keys {m : DepMap} {t : String} {l : List String}
    (h : List.lookup t m = some l) : t ∈ keysOf m := by
  induction m with
  | nil => cases h
  | cons kv rest ih =>
    obtain ⟨k, v⟩ := kv
    rw [List.lookup_cons] at h
    cases hbe : t == k with
    | true =>
      have : t = k := eq_of_beq hbe
      subst this
      exact List.mem_cons_self _ _
    | false =>
      rw [hbe] at h
      exact List.mem_cons_of_mem _ (ih h)

lemma mem_keys_lookup {m : DepMap} {t : String} (h : t ∈ keysOf m) :
    ∃ l, List.lookup t m = some l := by
  induction m with
  | nil => cases h
  | cons kv rest ih =>
    obtain ⟨k, v⟩ := kv
    rw [List.lookup_cons]
    cases hbe : t == k with
    | true => exact ⟨v, rfl⟩
    | false =>
      have hne : t ≠ k := by
        intro hh
        rw [hh] at hbe
        simp at hbe
      rcases List.mem_cons.mp h with h1 | h1
      · exact absurd h1 hne
      · exact ih h1

lemma length_filter_ne_lt (l : List String) (a : String) (ha : a ∈ l) :
    (l.filter (fun x => x != a)).length < l.length := by
  induction l with
  | nil => cases ha
  | cons b bs ih =>
    by_cases hb : b = a
    · subst hb
      have : (b != b) = false := by simp
      simp only [List.filter, this]
      exact Nat.lt_succ_of_le (List.length_filter_le _ _)
    · have hkeep : (b != a) = true := bne_iff_ne.mpr hb
      simp only [List.filter, hkeep, List.length_cons]
      have hmem : a ∈ bs := by
        rcases List.mem_cons.mp ha with h1 | h1
        · exact absurd h1.symm hb
        · exact h1
      exact Nat.succ_lt_succ (ih hmem)

lemma U_insert_lt {m : DepMap} {st : SortSt} {t : String} (htk : t ∈ keysOf m)
    (htv : st.visited.contains t = false) (srt : List String) :
    U m ⟨t :: st.visited, srt⟩ < U m st := by
  unfold U
  have hcomp : (keysOf m).filter (fun k => !((⟨t :: st.visited, srt⟩ : SortSt).visited.contains k))
      = ((keysOf m).filter (fun k => !(st.visited.contains k))).filter (fun k => k != t) := by
    rw [List.filter_filter]
    apply List.filter_congr
    intro x _
    show (!((t :: st.visited).contains x)) = ((x != t) && !(st.visited.contains x))
    rw [contains_cons]
    cases hx : x == t <;> cases hv : st.visited.contains x <;> simp [bne, hx, hv]
  rw [hcomp]
  apply length_filter_ne_lt
  exact List.mem_filter.mpr ⟨htk, by rw [htv]; rfl⟩

lemma length_filter_mono {l : List String} {p q : String → Bool}
    (h : ∀ a, p a = true → q a = true) :
    (l.filter p).length ≤ (l.filter q).length := by
  induction l with
  | nil => exact Nat.le_refl _
  | cons b bs ih =>
    cases hp : p b with
    | true =>
      have hq := h b hp
      simp only [List.filter, hp, hq, List.length_cons]
      exact Nat.succ_le_succ ih
    | false =>
      cases hq : q b with
      | true =>
        simp only [List.filter, hp, hq, List.length_cons]
        exact Nat.le_trans ih (Nat.le_succ _)
      | false => simp only [List.filter, hp, hq]; exact ih

lemma U_mono_of_visited {m : DepMap} {st st' : SortSt}
    (h : ∀ x, st.visited.contains x = true → st'.visited.contains x = true) :
    U m st' ≤ U m st := by
  apply length_filter_mono
  intro a hp
  cases hv : st.visited.contains a with
  | false => rfl
  | true =>
    rw [h a hv] at hp
    cases hp

lemma U_le_keys (m : DepMap) (st : SortSt) : U m st ≤ (keysOf m).length :=
  List.length_filter_le _ _

/-! ## Monotonicity and fuel sufficiency of `visit` -/

lemma visit_mono : ∀ (fuel : Nat) (m : DepMap) (t : String) (st st' : SortSt),
    visit fuel m t st = .ok st' →
    ((∀ x, st.visited.contains x = true → st'.visited.contains x = true) ∧
     ∃ app, st'.sorted = st.sorted ++ app) := by
  intro fuel
  induction fuel with
  | zero => intro m t st st' h; cases h
  | succ F ih =>
    intro m t st st' h
    rw [visit] at h
    cases hv : st.visited.contains t with
    | true =>
      rw [hv, if_pos rfl] at h
      obtain rfl := Except.ok.inj h
      exact ⟨fun x hx => hx, [], by simp⟩
    | false =>
      rw [hv, if_neg Bool.false_ne_true] at h
      cases hl : List.lookup t m with
      | none => rw [hl] at h; cases h
      | some ds =>
        rw [hl] at h
        have h2 : (match List.foldlM (fun s d => visit F m d s)
              (⟨t :: st.visited, st.sorted⟩ : SortSt) ds with
            | Except.error e => Except.error e
            | Except.ok st2 =>
                Except.ok (⟨st2.visited, st2.sorted ++ [t]⟩ : SortSt)) = Except.ok st' := h
        cases hf : List.foldlM (fun s d => visit F m d s) ⟨t :: st.visited, st.sorted⟩ ds with
        | error e => rw [hf] at h2; cases h2
        | ok st2 =>
          rw [hf] at h2
          obtain rfl := Except.ok.inj h2
          have hfold := foldlM_except_rel
            (R := fun s s' : SortSt =>
              (∀ x, s.visited.contains x = true → s'.visited.contains x = true) ∧
              ∃ app, s'.sorted = s.sorted ++ app)
            (fun s => ⟨fun x hx => hx, [], by simp⟩)
            (fun a b c hab hbc => ⟨fun x hx => hbc.1 x (hab.1 x hx), by
              obtain ⟨p, hp⟩ := hab.2
              obtain ⟨q, hq⟩ := hbc.2
              exact ⟨p ++ q, by rw [hq, hp, List.append_assoc]⟩⟩)
            (fun s a s' hstep => ih m a s s' hstep)
            ds ⟨t :: st.visited, st.sorted⟩ st2 hf
          constructor
          · intro x hx
            apply hfold.1 x
            show (t :: st.visited).contains x = true
            rw [contains_cons, hx]
            simp
          · obtain ⟨app, happ⟩ := hfold.2
            exact ⟨app ++ [t], by show st2.sorted ++ [t] = _; rw [happ, List.append_assoc]⟩

lemma visit_ne_outOfFuel : ∀ (fuel : Nat) (m : DepMap) (t : String) (st : SortSt),
    U m st < fuel → visit fuel m t st ≠ .error .outOfFuel := by
  intro fuel
  induction fuel with
  | zero => intro m t st h; exact absurd h (Nat.not_lt_zero _)
  | succ F ih =>
    intro m t st hU h
    rw [visit] at h
    cases hv : st.visited.contains t with
    | true => rw [hv, if_pos rfl] at h; cases h
    | false =>
      rw [hv, if_neg Bool.false_ne_true] at h
      cases hl : List.lookup t m with
      | none => rw [hl] at h; cases h
      | some ds =>
        rw [hl] at h
        have h2 : (match List.foldlM (fun s d => visit F m d s)
              (⟨t :: st.visited, st.sorted⟩ : SortSt) ds with
            | Except.error e => Except.error e
            | Except.ok st2 =>
                Except.ok (⟨st2.visited, st2.sorted ++ [t]⟩ : SortSt))
            = Except.error SortErr.outOfFuel := h
        have htk : t ∈ keysOf m := lookup_mem_keys hl
        have hU1 : U m ⟨t :: st.visited, st.sorted⟩ < F := by
          have h1 := U_insert_lt htk hv st.sorted
          omega
        have hsafe := foldlM_except_safe (b := SortErr.outOfFuel)
          (I := fun s => U m s < F)
          (fun s a s' hI hstep =>
            lt_of_le_of_lt (U_mono_of_visited (visit_mono F m a s s' hstep).1) hI)
          (fun s a hI => ih m a s hI)
          ds ⟨t :: st.visited, st.sorted⟩ hU1
        cases hf : List.foldlM (fun s d => visit F m d s) ⟨t :: st.visited, st.sorted⟩ ds with
        | error e =>
          rw [hf] at h2
          have he : e = .outOfFuel := Except.error.inj h2
          rw [he] at hf
          exact hsafe hf
        | ok st2 => rw [hf] at h2; cases h2

/-! ## C9: the dependency sort terminates on every schema -/

lemma addEdge_ne_outOfFuel : ∀ (m : DepMap) (s t : String),
    addEdge m s t ≠ .error .outOfFuel := by
  intro m
  induction m with
  | nil => intro s t h; cases h
  | cons kv rest ih =>
    intro s t h
    obtain ⟨k, l⟩ := kv
    rw [addEdge] at h
    cases hke : k == s with
    | true => rw [hke, if_pos rfl] at h; cases h
    | false =>
      rw [hke, if_neg Bool.false_ne_true] at h
      cases hae : addEdge rest s t with
      | ok rest' => rw [hae] at h; cases h
      | error e =>
        rw [hae] at h
        have he : e = .outOfFuel := Except.error.inj h
        rw [he] at hae
        exact ih s t hae

lemma buildDepMap_ne_outOfFuel (tables : List Table) (rels : List Relationship) :
    buildDepMap tables rels ≠ .error .outOfFuel := by
  unfold buildDepMap
  apply foldlM_except_safe (I := fun _ => True)
  · intro _ _ _ _ _; trivial
  · intro m rel _ h
    cases hrt : relTruthy rel with
    | none => rw [hrt] at h; cases h
    | some p =>
      obtain ⟨s, t⟩ := p
      rw [hrt] at h
      exact addEdge_ne_outOfFuel m s t h
  · trivial

lemma sortNames_ne_outOfFuel (tables : List Table) (rels : List Relationship) :
    sortNames tables rels ≠ .error .outOfFuel := by
  unfold sortNames
  cases hb : buildDepMap tables rels with
  | error e =>
    intro h
    have he : e = .outOfFuel := Except.error.inj h
    rw [he] at hb
    exact buildDepMap_ne_outOfFuel tables rels hb
  | ok m =>
    intro h
    have h2 : (match List.foldlM (fun st k => visit ((List.map Prod.fst m).length + 1) m k st)
          (⟨[], []⟩ : SortSt) (List.map Prod.fst m) with
        | Except.error e => Except.error e
        | Except.ok st => Except.ok st.sorted) = Except.error SortErr.outOfFuel := h
    have hsafe := foldlM_except_safe (b := SortErr.outOfFuel)
      (I := fun _ : SortSt => True)
      (fun _ _ _ _ _ => trivial)
      (fun st k _ =>
        visit_ne_outOfFuel ((List.map Prod.fst m).length + 1) m k st
          (Nat.lt_succ_of_le (U_le_keys m st)))
      (List.map Prod.fst m) (⟨[], []⟩ : SortSt) trivial
    cases hf : List.foldlM (fun st k => visit ((List.map Prod.fst m).length + 1) m k st)
        (⟨[], []⟩ : SortSt) (List.map Prod.fst m) with
    | error e =>
      rw [hf] at h2
      have he : e = .outOfFuel := Except.error.inj h2
      rw [he] at hf
      exact hsafe hf
    | ok st => rw [hf] at h2; cases h2

/-! ## Properties of `addEdge` and `buildDepMap` -/

lemma addEdge_keys : ∀ (m : DepMap) (s t : String) (m' : DepMap),
    addEdge m s t = .ok m' → keysOf m' = keysOf m := by
  intro m
  induction m with
  | nil => intro s t m' h; cases h
  | cons kv rest ih =>
    intro s t m' h
    obtain ⟨k, l⟩ := kv
    rw [addEdge] at h
    cases hke : k == s with
    | true =>
      rw [hke, if_pos rfl] at h
      obtain rfl := Except.ok.inj h
      rfl
    | false =>
      rw [hke, if_neg Bool.false_ne_true] at h
      cases hae : addEdge rest s t with
      | error e => rw [hae] at h; cases h
      | ok rest' =>
        rw [hae] at h
        obtain rfl := Except.ok.inj h
        show k :: keysOf rest' = k :: keysOf rest
        rw [ih s t rest' hae]

lemma addEdge_ok_mem : ∀ (m : DepMap) (s t : String) (m' : DepMap),
    addEdge m s t = .ok m' → s ∈ keysOf m := by
  intro m
  induction m with
  | nil => intro s t m' h; cases h
  | cons kv rest ih =>
    intro s t m' h
    obtain ⟨k, l⟩ := kv
    rw [addEdge] at h
    cases hke : k == s with
    | true =>
      have hks : k = s := eq_of_beq hke
      rw [hks]
      exact List.mem_cons_self _ _
    | false =>
      rw [hke, if_neg Bool.false_ne_true] at h
      cases hae : addEdge rest s t with
      | error e => rw [hae] at h; cases h
      | ok rest' => exact List.mem_cons_of_mem _ (ih s t rest' hae)

lemma lookup_cons_true {k a : String} {x : List String} {rest : DepMap}
    (h : (a == k) = true) : List.lookup a ((k, x) :: rest) = some x := by
  rw [List.lookup_cons, h]

lemma lookup_cons_false {k a : String} {x : List String} {rest : DepMap}
    (h : (a == k) = false) : List.lookup a ((k, x) :: rest) = List.lookup a rest := by
  rw [List.lookup_cons, h]

lemma addEdge_mem : ∀ (m : DepMap) (s t : String) (m' : DepMap),
    addEdge m s t = .ok m' →
    ∀ a b, mapEdge m' a b ↔ (mapEdge m a b ∨ (a = s ∧ b = t)) := by
  intro m
  induction m with
  | nil => intro s t m' h; cases h
  | cons kv rest ih =>
    intro s t m' h a b
    obtain ⟨k, l⟩ := kv
    rw [addEdge] at h
    cases hke : k == s with
    | true =>
      have hks : k = s := eq_of_beq hke
      rw [hke, if_pos rfl] at h
      obtain rfl := Except.ok.inj h
      cases hak : a == k with
      | true =>
        have hk : a = k := eq_of_beq hak
        unfold mapEdge
        rw [lookup_cons_true hak, lookup_cons_true hak]
        constructor
        · rintro ⟨l0, hl0, hb⟩
          obtain rfl := Option.some.inj hl0
          cases hct : l.contains t with
          | true =>
            rw [hct, if_pos rfl] at hb
            exact Or.inl ⟨l, rfl, hb⟩
          | false =>
            rw [hct, if_neg Bool.false_ne_true] at hb
            rcases List.mem_append.mp hb with hb1 | hb1
            · exact Or.inl ⟨l, rfl, hb1⟩
            · exact Or.inr ⟨hk.trans hks, List.mem_singleton.mp hb1⟩
        · rintro (⟨l0, hl0, hb⟩ | ⟨_, rfl⟩)
          · obtain rfl := Option.some.inj hl0
            refine ⟨_, rfl, ?_⟩
            cases hct : l.contains t with
            | true =>
              rw [if_pos rfl]
              exact hb
            | false =>
              rw [if_neg Bool.false_ne_true]
              exact List.mem_append.mpr (Or.inl hb)
          · refine ⟨_, rfl, ?_⟩
            cases hct : l.contains b with
            | true =>
              rw [if_pos rfl]
              exact contains_iff.mp hct
            | false =>
              rw [if_neg Bool.false_ne_true]
              exact List.mem_append.mpr (Or.inr (List.mem_singleton.mpr rfl))
      | false =>
        have hne : a ≠ s := by
          intro hh
          rw [hh, ← hks] at hak
          simp at hak
        unfold mapEdge
        rw [lookup_cons_false hak, lookup_cons_false hak]
        constructor
        · rintro ⟨l0, hl0, hb⟩
          exact Or.inl ⟨l0, hl0, hb⟩
        · rintro (⟨l0, hl0, hb⟩ | ⟨h1, _⟩)
          · exact ⟨l0, hl0, hb⟩
          · exact absurd h1 hne
    | false =>
      have hkne : k ≠ s := by
        intro hh
        rw [hh] at hke
        simp at hke
      rw [hke, if_neg Bool.false_ne_true] at h
      cases hae : addEdge rest s t with
      | error e => rw [hae] at h; cases h
      | ok rest' =>
        rw [hae] at h
        obtain rfl := Except.ok.inj h
        cases hak : a == k with
        | true =>
          have hk : a = k := eq_of_beq hak
          unfold mapEdge
          rw [lookup_cons_true hak, lookup_cons_true hak]
          constructor
          · rintro ⟨l0, hl0, hb⟩
            exact Or.inl ⟨l0, hl0, hb⟩
          · rintro (⟨l0, hl0, hb⟩ | ⟨h1, _⟩)
            · exact ⟨l0, hl0, hb⟩
            · exact absurd (hk.symm.trans h1) hkne
        | false =>
          unfold mapEdge
          rw [lookup_cons_false hak, lookup_cons_false hak]
          exact ih s t rest' hae a b

/-- Initial `dependency_map`: every key maps to the empty set. -/
lemma lookup_initMap : ∀ (names : List String) (a : String) (l : List String),
    List.lookup a (names.map (fun n => (n, ([] : List String)))) = some l → l = [] := by
  intro names
  induction names with
  | nil => intro a l h; cases h
  | cons n ns ih =>
    intro a l h
    rw [List.map_cons, List.lookup_cons] at h
    cases hae : a == n with
    | true =>
      rw [hae] at h
      exact (Option.some.inj h).symm
    | false =>
      rw [hae] at h
      exact ih a l h

lemma initMap_keys (names : List String) :
    keysOf (names.map (fun n => (n, ([] : List String)))) = names := by
  unfold keysOf
  rw [List.map_map]
  exact List.map_id _

lemma mem_dictKeys : ∀ (l : List String) (x : String), x ∈ dictKeys l ↔ x ∈ l := by
  intro l
  induction l with
  | nil => intro x; rfl
  | cons n ns ih =>
    intro x
    rw [dictKeys]
    constructor
    · intro h
      rcases List.mem_cons.mp h with rfl | h1
      · exact List.mem_cons_self _ _
      · exact List.mem_cons_of_mem _ ((ih x).mp (List.mem_filter.mp h1).1)
    · intro h
      rcases List.mem_cons.mp h with rfl | h1
      · exact List.mem_cons_self _ _
      · by_cases hxn : x = n
        · rw [hxn]; exact List.mem_cons_self _ _
        · exact List.mem_cons_of_mem _
            (List.mem_filter.mpr ⟨(ih x).mpr h1, bne_iff_ne.mpr hxn⟩)

lemma relEdge_nil (a b : String) : ¬ relEdge [] a b := by
  rintro ⟨r, hr, _⟩
  cases hr

lemma relEdge_cons (rel : Relationship) (rest : List Relationship) (a b : String) :
    relEdge (rel :: rest) a b ↔ (relTruthy rel = some (a, b) ∨ relEdge rest a b) := by
  unfold relEdge
  constructor
  · rintro ⟨r, hr, hrt⟩
    rcases List.mem_cons.mp hr with rfl | h1
    · exact Or.inl hrt
    · exact Or.inr ⟨r, h1, hrt⟩
  · rintro (h1 | ⟨r, hr, hrt⟩)
    · exact ⟨rel, List.mem_cons_self _ _, h1⟩
    · exact ⟨r, List.mem_cons_of_mem _ hr, hrt⟩

/-- Master property of the `dependency_map` build fold. -/
lemma buildFold_spec : ∀ (rels : List Relationship) (m0 m' : DepMap),
    List.foldlM
      (fun m rel =>
        match relTruthy rel with
        | some (s, t) => addEdge m s t
        | none => .ok m) m0 rels = .ok m' →
    (keysOf m' = keysOf m0 ∧
     (∀ a b, mapEdge m' a b ↔ (mapEdge m0 a b ∨ relEdge rels a b)) ∧
     (∀ rel ∈ rels, ∀ s t, relTruthy rel = some (s, t) → s ∈ keysOf m0)) := by
  intro rels
  induction rels with
  | nil =>
    intro m0 m' h
    obtain rfl := Except.ok.inj h
    exact ⟨rfl, fun a b => by simp [relEdge_nil], by simp⟩
  | cons rel rest ih =>
    intro m0 m' h
    rw [foldlM_except_cons] at h
    cases hrt : relTruthy rel with
    | none =>
      rw [hrt] at h
      obtain ⟨hk, hedge, hsrc⟩ := ih m0 m' h
      refine ⟨hk, fun a b => ?_, ?_⟩
      · rw [hedge a b, relEdge_cons, hrt]
        simp
      · intro r hr s t hrts
        rcases List.mem_cons.mp hr with rfl | h1
        · rw [hrt] at hrts; cases hrts
        · exact hsrc r h1 s t hrts
    | some p =>
      obtain ⟨s, t⟩ := p
      rw [hrt] at h
      have h2 : (addEdge m0 s t).bind
          (fun m1 => List.foldlM
            (fun m rel =>
              match relTruthy rel with
              | some (s, t) => addEdge m s t
              | none => .ok m) m1 rest) = .ok m' := h
      cases hae : addEdge m0 s t with
      | error e => rw [hae] at h2; cases h2
      | ok m1 =>
        rw [hae] at h2
        obtain ⟨hk, hedge, hsrc⟩ := ih m1 m' h2
        have hkeys1 := addEdge_keys m0 s t m1 hae
        refine ⟨hk.trans hkeys1, fun a b => ?_, ?_⟩
        · rw [hedge a b, addEdge_mem m0 s t m1 hae a b, relEdge_cons, hrt]
          constructor
          · rintro ((h1 | ⟨rfl, rfl⟩) | h1)
            · exact Or.inl h1
            · exact Or.inr (Or.inl rfl)
            · exact Or.inr (Or.inr h1)
          · rintro (h1 | (h1 | h1))
            · exact Or.inl (Or.inl h1)
            · have h3 := Option.some.inj h1
              rw [Prod.mk.injEq] at h3
              exact Or.inl (Or.inr ⟨h3.1.symm, h3.2.symm⟩)
            · exact Or.inr h1
        · intro r hr s' t' hrts
          rcases List.mem_cons.mp hr with rfl | h1
          · rw [hrt] at hrts
            have h3 := Option.some.inj hrts
            rw [Prod.mk.injEq] at h3
            rw [← h3.1]
            exact addEdge_ok_mem m0 s t m1 hae
          · rw [← hkeys1]
            exact hsrc r h1 s' t' hrts

/-- Specification of `buildDepMap`: on success the keys are exactly the
(first-occurrence deduplicated) table names and the map edges are exactly
the truthy relationship edges. -/
lemma buildDepMap_spec {tables : List Table} {rels : List Relationship} {m : DepMap}
    (h : buildDepMap tables rels = .ok m) :
    keysOf m = dictKeys (tables.map Table.name) ∧
    (∀ a b, mapEdge m a b ↔ relEdge rels a b) ∧
    (∀ rel ∈ rels, ∀ s t, relTruthy rel = some (s, t) →
      s ∈ dictKeys (tables.map Table.name)) := by
  unfold buildDepMap at h
  obtain ⟨hk, hedge, hsrc⟩ := buildFold_spec rels _ m h
  have hik := initMap_keys (dictKeys (tables.map Table.name))
  refine ⟨hk.trans hik, fun a b => ?_, fun r hr s t hrt => hik ▸ hsrc r hr s t hrt⟩
  rw [hedge a b]
  constructor
  · rintro (⟨l, hl, hb⟩ | h1)
    · rw [lookup_initMap _ a l hl] at hb
      cases hb
    · exact h1
  · exact Or.inr

lemma sortTables_ne_outOfFuel (tables : List Table) (rels : List Relationship) :
    sort_tables_by_dependencies tables rels ≠ .error .outOfFuel := by
  unfold sort_tables_by_dependencies
  cases hs : sortNames tables rels with
  | error e =>
    intro h
    have he : e = .outOfFuel := Except.error.inj h
    rw [he] at hs
    exact sortNames_ne_outOfFuel tables rels hs
  | ok ns => intro h; cases h

/-- C9: the dependency sort terminates on every schema — including
self-referential relationships and arbitrary cyclic foreign-key graphs:
the fuel `keys.length + 1` supplied by `sortNames` (which mirrors the
visited-set guarantee that each table is visited at most once) is never
exhausted, so `sort_tables_by_dependencies` never returns the
`outOfFuel` marker of non-termination. -/
theorem c9_sort_terminates (tables : List Table) (rels : List Relationship) :
    sort_tables_by_dependencies tables rels ≠ .error .outOfFuel :=
  sortTables_ne_outOfFuel tables rels

/-! ## Closure properties of successful `visit` runs -/

lemma foldVisit_mono (fuel : Nat) (m : DepMap) (ds : List String) (s s' : SortSt)
    (h : List.foldlM (fun s d => visit fuel m d s) s ds = .ok s') :
    ∀ x, s.visited.contains x = true → s'.visited.contains x = true :=
  foldlM_except_rel
    (R := fun a b : SortSt => ∀ x, a.visited.contains x = true → b.visited.contains x = true)
    (fun _ x hx => hx) (fun _ _ _ hab hbc x hx => hbc x (hab x hx))
    (fun a b c hstep => (visit_mono fuel m b a c hstep).1) ds s s' h

lemma visit_ok_self : ∀ (fuel : Nat) (m : DepMap) (t : String) (st st' : SortSt),
    visit fuel m t st = .ok st' → st'.visited.contains t = true := by
  intro fuel m t st st' h
  cases fuel with
  | zero => cases h
  | succ F =>
    rw [visit] at h
    cases hv : st.visited.contains t with
    | true =>
      rw [hv, if_pos rfl] at h
      obtain rfl := Except.ok.inj h
      exact hv
    | false =>
      rw [hv, if_neg Bool.false_ne_true] at h
      cases hl : List.lookup t m with
      | none => rw [hl] at h; cases h
      | some ds =>
        rw [hl] at h
        have h2 : (match List.foldlM (fun s d => visit F m d s)
              (⟨t :: st.visited, st.sorted⟩ : SortSt) ds with
            | Except.error e => Except.error e
            | Except.ok st2 =>
                Except.ok (⟨st2.visited, st2.sorted ++ [t]⟩ : SortSt)) = Except.ok st' := h
        cases hf : List.foldlM (fun s d => visit F m d s) ⟨t :: st.visited, st.sorted⟩ ds with
        | error e => rw [hf] at h2; cases h2
        | ok st2 =>
          rw [hf] at h2
          obtain rfl := Except.ok.inj h2
          show st2.visited.contains t = true
          apply foldVisit_mono F m ds _ st2 hf
          show (t :: st.visited).contains t = true
          rw [contains_cons]
          simp

lemma foldVisit_elems (fuel : Nat) (m : DepMap) :
    ∀ (ds : List String) (s s' : SortSt),
      List.foldlM (fun s d => visit fuel m d s) s ds = .ok s' →
      ∀ d ∈ ds, s'.visited.contains d = true := by
  intro ds
  induction ds with
  | nil => intro s s' _ d hd; cases hd
  | cons a l ihd =>
    intro s s' h d hd
    rw [foldlM_except_cons] at h
    cases hfa : visit fuel m a s with
    | error e => rw [hfa] at h; cases h
    | ok s1 =>
      rw [hfa] at h
      rcases List.mem_cons.mp hd with rfl | hd1
      · exact foldVisit_mono fuel m l s1 s' h d (visit_ok_self fuel m d s s1 hfa)
      · exact ihd s1 s' h d hd1

/-- The closure relation between the entry and exit states of a successful
call: the visited set grows, and every newly visited name has a successful
dependency lookup all of whose dependencies are visited on exit. -/
def VCl (m : DepMap) (s s' : SortSt) : Prop :=
  (∀ x, s.visited.contains x = true → s'.visited.contains x = true) ∧
  (∀ y, s.visited.contains y = false → s'.visited.contains y = true →
    ∃ l, List.lookup y m = some l ∧ ∀ d ∈ l, s'.visited.contains d = true)

lemma VCl_refl (m : DepMap) : ∀ s, VCl m s s :=
  fun s => ⟨fun _ hx => hx, fun y hy1 hy2 => absurd (hy1 ▸ hy2) Bool.false_ne_true⟩

lemma VCl_trans (m : DepMap) : ∀ a b c, VCl m a b → VCl m b c → VCl m a c := by
  intro a b c hab hbc
  refine ⟨fun x hx => hbc.1 x (hab.1 x hx), fun y hy1 hy2 => ?_⟩
  cases hyb : b.visited.contains y with
  | true =>
    obtain ⟨l, hl, hd⟩ := hab.2 y hy1 hyb
    exact ⟨l, hl, fun d hdl => hbc.1 d (hd d hdl)⟩
  | false => exact hbc.2 y hyb hy2

lemma visit_ok_closed : ∀ (fuel : Nat) (m : DepMap) (t : String) (st st' : SortSt),
    visit fuel m t st = .ok st' → VCl m st st' := by
  intro fuel
  induction fuel with
  | zero => intro m t st st' h; cases h
  | succ F ih =>
    intro m t st st' h
    rw [visit] at h
    cases hv : st.visited.contains t with
    | true =>
      rw [hv, if_pos rfl] at h
      obtain rfl := Except.ok.inj h
      exact VCl_refl m st
    | false =>
      rw [hv, if_neg Bool.false_ne_true] at h
      cases hl : List.lookup t m with
      | none => rw [hl] at h; cases h
      | some ds =>
        rw [hl] at h
        have h2 : (match List.foldlM (fun s d => visit F m d s)
              (⟨t :: st.visited, st.sorted⟩ : SortSt) ds with
            | Except.error e => Except.error e
            | Except.ok st2 =>
                Except.ok (⟨st2.visited, st2.sorted ++ [t]⟩ : SortSt)) = Except.ok st' := h
        cases hf : List.foldlM (fun s d => visit F m d s) ⟨t :: st.visited, st.sorted⟩ ds with
        | error e => rw [hf] at h2; cases h2
        | ok st2 =>
          rw [hf] at h2
          obtain rfl := Except.ok.inj h2
          have hfold : VCl m ⟨t :: st.visited, st.sorted⟩ st2 :=
            foldlM_except_rel (VCl_refl m) (VCl_trans m)
              (fun a b c hstep => ih m b a c hstep) ds _ st2 hf
          have helems : ∀ d ∈ ds, st2.visited.contains d = true :=
            foldVisit_elems F m ds _ st2 hf
          constructor
          · intro x hx
            apply hfold.1
            rw [contains_cons, hx]
            simp
          · intro y hy1 hy2
            by_cases hyt : y = t
            · subst hyt
              exact ⟨ds, hl, helems⟩
            · have hy1' : (t :: st.visited).contains y = false := by
                rw [contains_cons, hy1, beq_eq_false_iff_ne.mpr hyt]
                rfl
              exact hfold.2 y hy1' hy2

/-! ## C2: unknown table names in relationships -/

/-- C2 counterexample: extraction resolution does fall back to the raw
identifier, but the dependency sort raises a `KeyError` when a
relationship names a table absent from the table list — the pipeline does
not proceed to completion. -/
theorem c2_unknown_table_counterexample :
    resolve_ref [] "ghost" = "ghost" ∧
    sort_tables_by_dependencies [⟨"a", "", [], [], false⟩]
        [⟨"fk", some "a", some "ghost", [], [], "", ""⟩] = .error (.keyError "ghost") :=
  ⟨rfl, by decide⟩

/-- C2 amended: the table-reference resolution of
`WorkbenchParser._extract_relationships` is total and falls back to the
raw internal identifier (never failing); but the dependency sort raises a
`KeyError` — rather than proceeding to completion — whenever some
relationship with nonempty source and target names a table that is
missing from the table list. -/
theorem c2_unknown_table_amended :
    (∀ (tm : List (String × String)) (rid : String),
      (List.lookup rid tm = none → resolve_ref tm rid = rid) ∧
      (∀ n, List.lookup rid tm = some n → resolve_ref tm rid = n)) ∧
    (∀ (tables : List Table) (rels : List Relationship) (rel : Relationship),
      rel ∈ rels → ∀ s t : String, rel.source_table = some s → rel.target_table = some t →
      s ≠ "" → t ≠ "" → (s ∉ tables.map Table.name ∨ t ∉ tables.map Table.name) →
      ∃ k, sort_tables_by_dependencies tables rels = .error (.keyError k)) := by
  constructor
  · intro tm rid
    constructor
    · intro h
      unfold resolve_ref
      rw [h]
      rfl
    · intro n h
      unfold resolve_ref
      rw [h]
      rfl
  · intro tables rels rel hrel s t hs ht hsne htne hout
    have hcond : (s != "" && t != "") = true := by
      rw [bne_iff_ne.mpr hsne, bne_iff_ne.mpr htne]
      rfl
    have htruthy : relTruthy rel = some (s, t) := by
      unfold relTruthy
      rw [hs, ht]
      show (if (s != "" && t != "") = true then some (s, t) else none) = some (s, t)
      rw [if_pos hcond]
    cases hres : sort_tables_by_dependencies tables rels with
    | error e =>
      cases e with
      | keyError k => exact ⟨k, rfl⟩
      | outOfFuel => exact absurd hres (sortTables_ne_outOfFuel tables rels)
    | ok L =>
      exfalso
      unfold sort_tables_by_dependencies at hres
      cases hs2 : sortNames tables rels with
      | error e => rw [hs2] at hres; cases hres
      | ok ns =>
        unfold sortNames at hs2
        cases hb : buildDepMap tables rels with
        | error e => rw [hb] at hs2; cases hs2
        | ok m =>
          rw [hb] at hs2
          obtain ⟨hkeys, hedge, hsrc⟩ := buildDepMap_spec hb
          rcases hout with hsout | htout
          · have := hsrc rel hrel s t htruthy
            rw [mem_dictKeys] at this
            exact hsout this
          · have hme : mapEdge m s t := (hedge s t).mpr ⟨rel, hrel, htruthy⟩
            obtain ⟨l, hl, htl⟩ := hme
            have h3 : (match List.foldlM
                  (fun st k => visit ((List.map Prod.fst m).length + 1) m k st)
                  (⟨[], []⟩ : SortSt) (List.map Prod.fst m) with
                | Except.error e => Except.error e
                | Except.ok st => Except.ok st.sorted) = Except.ok ns := hs2
            cases hf : List.foldlM (fun st k => visit ((List.map Prod.fst m).length + 1) m k st)
                (⟨[], []⟩ : SortSt) (List.map Prod.fst m) with
            | error e => rw [hf] at h3; cases h3
            | ok stF =>
              have hsk : s ∈ keysOf m := lookup_mem_keys hl
              have hsv : stF.visited.contains s = true :=
                foldVisit_elems _ m (List.map Prod.fst m) _ stF hf s hsk
              have hcl : VCl m ⟨[], []⟩ stF :=
                foldlM_except_rel (VCl_refl m) (VCl_trans m)
                  (fun st k st' hstep => visit_ok_closed _ m k st st' hstep)
                  (List.map Prod.fst m) _ stF hf
              obtain ⟨l', hl', hld⟩ := hcl.2 s rfl hsv
              rw [hl] at hl'
              obtain rfl := Option.some.inj hl'
              have htv : stF.visited.contains t = true := hld t htl
              obtain ⟨l0, hl0, _⟩ := hcl.2 t rfl htv
              have htk : t ∈ keysOf m := lookup_mem_keys hl0
              rw [hkeys, mem_dictKeys] at htk
              exact htout htk

/-- Witness for the amended C2: concrete resolution fallback and a concrete
schema whose sort fails with a `KeyError`. -/
theorem c2_unknown_table_amended_witness :
    resolve_ref [("id1", "users")] "ghost" = "ghost" ∧
    ∃ k, sort_tables_by_dependencies [⟨"a", "", [], [], false⟩]
        [⟨"fk", some "a", some "ghost", [], [], "", ""⟩] = .error (.keyError k) :=
  ⟨(c2_unknown_table_amended.1 [("id1", "users")] "ghost").1 (by decide),
   c2_unknown_table_amended.2 [⟨"a", "", [], [], false⟩]
     [⟨"fk", some "a", some "ghost", [], [], "", ""⟩]
     ⟨"fk", some "a", some "ghost", [], [], "", ""⟩ (List.mem_singleton.mpr rfl)
     "a" "ghost" rfl rfl (by decide) (by decide) (Or.inr (by decide))⟩

/-! ## C1: totality of the sort on schemas whose endpoints are all known -/

lemma dictKeys_nodup : ∀ (l : List String), (dictKeys l).Nodup := by
  intro l
  induction l with
  | nil => exact List.nodup_nil
  | cons n ns ih =>
    rw [dictKeys]
    refine List.nodup_cons.mpr ⟨?_, ih.filter _⟩
    intro hmem
    exact absurd ((List.mem_filter.mp hmem).2) (by simp)

lemma dictKeys_of_nodup : ∀ (l : List String), l.Nodup → dictKeys l = l := by
  intro l
  induction l with
  | nil => intro _; rfl
  | cons n ns ih =>
    intro hnd
    obtain ⟨hn, hnd2⟩ := List.nodup_cons.mp hnd
    rw [dictKeys, ih hnd2, List.filter_eq_self.mpr]
    intro x hx
    exact bne_iff_ne.mpr (fun hh => hn (hh ▸ hx))

lemma foldlM_except_ok_mem {ε σ α : Type} {f : σ → α → Except ε σ} (I : σ → Prop)
    (hpres : ∀ s a s', I s → f s a = .ok s' → I s') :
    ∀ (l : List α), (∀ s a, a ∈ l → I s → ∃ s', f s a = .ok s') →
      ∀ (s : σ), I s → ∃ s', List.foldlM f s l = .ok s' ∧ I s' := by
  intro l
  induction l with
  | nil => intro _ s hI; exact ⟨s, rfl, hI⟩
  | cons a t ih =>
    intro hok s hI
    obtain ⟨s1, hs1⟩ := hok s a (List.mem_cons_self _ _) hI
    obtain ⟨s2, h2, hI2⟩ :=
      ih (fun s b hb hI => hok s b (List.mem_cons_of_mem a hb) hI) s1 (hpres s a s1 hI hs1)
    exact ⟨s2, by rw [foldlM_except_cons, hs1]; exact h2, hI2⟩

lemma addEdge_total : ∀ (m : DepMap) (s t : String), s ∈ keysOf m →
    ∃ m', addEdge m s t = .ok m' := by
  intro m
  induction m with
  | nil => intro s t h; cases h
  | cons kv rest ih =>
    intro s t h
    obtain ⟨k, l⟩ := kv
    cases hke : k == s with
    | true =>
      exact ⟨(k, if l.contains t then l else l ++ [t]) :: rest,
        by rw [addEdge, hke, if_pos rfl]⟩
    | false =>
      have hne : s ≠ k := by
        intro hh
        rw [hh] at hke
        simp at hke
      have hs : s ∈ keysOf rest := by
        rcases List.mem_cons.mp h with h1 | h1
        · exact absurd h1 hne
        · exact h1
      obtain ⟨rest2, hr⟩ := ih s t hs
      refine ⟨(k, l) :: rest2, ?_⟩
      rw [addEdge, hke, if_neg Bool.false_ne_true, hr]

lemma buildDepMap_total (tables : List Table) (rels : List Relationship)
    (hin : ∀ rel ∈ rels, ∀ s t, relTruthy rel = some (s, t) →
      s ∈ tables.map Table.name) :
    ∃ m, buildDepMap tables rels = .ok m ∧
      keysOf m = dictKeys (tables.map Table.name) := by
  unfold buildDepMap
  refine foldlM_except_ok_mem
    (I := fun m => keysOf m = dictKeys (tables.map Table.name)) ?_ rels ?_ _ (initMap_keys _)
  · intro m rel m' hI hstep
    cases hrt : relTruthy rel with
    | none =>
      rw [hrt] at hstep
      have h2 : Except.ok (ε := SortErr) m = Except.ok m' := hstep
      obtain rfl := Except.ok.inj h2
      exact hI
    | some p =>
      obtain ⟨s, t⟩ := p
      rw [hrt] at hstep
      have h2 : addEdge m s t = Except.ok m' := hstep
      rw [addEdge_keys m s t m' h2]
      exact hI
  · intro m rel hrel hI
    cases hrt : relTruthy rel with
    | none => exact ⟨m, rfl⟩
    | some p =>
      obtain ⟨s, t⟩ := p
      have hsk : s ∈ keysOf m := by
        rw [hI, mem_dictKeys]
        exact hin rel hrel s t hrt
      obtain ⟨m', hm'⟩ := addEdge_total m s t hsk
      exact ⟨m', hm'⟩

/-- The dependency map never mentions a dependency that is not itself a key. -/
def MapClosed (m : DepMap) : Prop :=
  ∀ x l, List.lookup x m = some l → ∀ d ∈ l, d ∈ keysOf m

lemma visit_total : ∀ (fuel : Nat) (m : DepMap) (t : String) (st : SortSt),
    U m st < fuel → MapClosed m → t ∈ keysOf m →
    ∃ st', visit fuel m t st = .ok st' := by
  intro fuel
  induction fuel with
  | zero => intro m t st hU _ _; exact absurd hU (Nat.not_lt_zero _)
  | succ F ih =>
    intro m t st hU hcl htk
    obtain ⟨ds, hl⟩ := mem_keys_lookup htk
    cases hv : st.visited.contains t with
    | true => exact ⟨st, by rw [visit, hv, if_pos rfl]⟩
    | false =>
      have hU1 : U m ⟨t :: st.visited, st.sorted⟩ < F := by
        have h1 := U_insert_lt htk hv st.sorted
        omega
      obtain ⟨st2, hf, _⟩ := foldlM_except_ok_mem
        (I := fun s => U m s < F)
        (fun s a s2 hI hstep =>
          lt_of_le_of_lt (U_mono_of_visited (visit_mono F m a s s2 hstep).1) hI)
        ds
        (fun s d hd hI => ih m d s hI hcl (hcl t ds hl d hd))
        ⟨t :: st.visited, st.sorted⟩ hU1
      refine ⟨⟨st2.visited, st2.sorted ++ [t]⟩, ?_⟩
      have he : visit (F + 1) m t st =
          match List.foldlM (fun s d => visit F m d s) ⟨t :: st.visited, st.sorted⟩ ds with
          | Except.error e => Except.error e
          | Except.ok st2 => Except.ok (⟨st2.visited, st2.sorted ++ [t]⟩ : SortSt) := by
        rw [visit, hv, if_neg Bool.false_ne_true, hl]
      rw [he, hf]

/-! ## C1: the DFS ordering invariant -/

/-- Invariant of the sort state under successful `visit` calls: the emitted
list is duplicate-free, contains only visited keys of the dependency map,
and lists every dependency of an emitted name strictly before that name. -/
structure SInv (m : DepMap) (st : SortSt) : Prop where
  nd : st.sorted.Nodup
  sub : ∀ x ∈ st.sorted, st.visited.contains x = true
  keys : ∀ x ∈ st.sorted, x ∈ keysOf m
  ord : ∀ x ∈ st.sorted, ∀ y, mapEdge m x y → BeforeL st.sorted y x

lemma BeforeL_append (l app : List String) (b a : String) (h : BeforeL l b a) :
    BeforeL (l ++ app) b a := by
  obtain ⟨u, v, w, hdec⟩ := h
  refine ⟨u, v, w ++ app, ?_⟩
  rw [hdec]
  simp

lemma BeforeL_mem_append (l : List String) (d t : String) (hd : d ∈ l) :
    BeforeL (l ++ [t]) d t := by
  obtain ⟨u, v, hdec⟩ := List.append_of_mem hd
  refine ⟨u, v, [], ?_⟩
  rw [hdec]

lemma visit_master (m : DepMap) (hacyc : ∀ x, ¬ Relation.TransGen (mapEdge m) x x) :
    ∀ (fuel : Nat) (t : String) (st st' : SortSt),
      visit fuel m t st = .ok st' → SInv m st →
      (∀ g, st.visited.contains g = true → g ∉ st.sorted →
        Relation.ReflTransGen (mapEdge m) g t) →
      SInv m st' ∧
      (∃ app, st'.sorted = st.sorted ++ app ∧
        ∀ x ∈ app, Relation.ReflTransGen (mapEdge m) t x) ∧
      (∀ x, (st'.visited.contains x = true ∧ x ∉ st'.sorted) ↔
        (st.visited.contains x = true ∧ x ∉ st.sorted)) := by
  intro fuel
  induction fuel with
  | zero => intro t st st' h _ _; cases h
  | succ F ih =>
    intro t st st' h hinv hgray
    rw [visit] at h
    cases hv : st.visited.contains t with
    | true =>
      rw [hv, if_pos rfl] at h
      obtain rfl := Except.ok.inj h
      exact ⟨hinv, ⟨[], by simp, fun x hx => absurd hx (List.not_mem_nil x)⟩,
        fun x => Iff.rfl⟩
    | false =>
      rw [hv, if_neg Bool.false_ne_true] at h
      cases hl : List.lookup t m with
      | none => rw [hl] at h; cases h
      | some ds =>
        rw [hl] at h
        have h2 : (match List.foldlM (fun s d => visit F m d s)
              (⟨t :: st.visited, st.sorted⟩ : SortSt) ds with
            | Except.error e => Except.error e
            | Except.ok st2 =>
                Except.ok (⟨st2.visited, st2.sorted ++ [t]⟩ : SortSt)) = Except.ok st' := h
        cases hf : List.foldlM (fun s d => visit F m d s) ⟨t :: st.visited, st.sorted⟩ ds with
        | error e => rw [hf] at h2; cases h2
        | ok st2 =>
          rw [hf] at h2
          obtain rfl := Except.ok.inj h2
          have htds : ∀ d ∈ ds, mapEdge m t d := fun d hd => ⟨ds, hl, hd⟩
          have htns : t ∉ st.sorted := by
            intro hts
            have hc := hinv.sub t hts
            rw [hv] at hc
            cases hc
          have hinv1 : SInv m ⟨t :: st.visited, st.sorted⟩ :=
            ⟨hinv.nd,
             fun x hx => by
               show (t :: st.visited).contains x = true
               rw [contains_cons, hinv.sub x hx]
               simp,
             hinv.keys, hinv.ord⟩
          have hstep : ∀ d s s2, d ∈ ds → visit F m d s = .ok s2 → SInv m s →
              (∀ g, s.visited.contains g = true → g ∉ s.sorted →
                Relation.ReflTransGen (mapEdge m) g t) →
              SInv m s2 ∧
              (∃ app, s2.sorted = s.sorted ++ app ∧
                ∀ x ∈ app, Relation.ReflTransGen (mapEdge m) t x) ∧
              (∀ x, (s2.visited.contains x = true ∧ x ∉ s2.sorted) ↔
                (s.visited.contains x = true ∧ x ∉ s.sorted)) := by
            intro d s s2 hd hvis hsinv hsgray
            obtain ⟨hinv2, ⟨app, happ, hreach⟩, hgray2⟩ := ih d s s2 hvis hsinv
              (fun g hg1 hg2 => Relation.ReflTransGen.tail (hsgray g hg1 hg2) (htds d hd))
            exact ⟨hinv2, ⟨app, happ,
              fun x hx => Relation.ReflTransGen.head (htds d hd) (hreach x hx)⟩, hgray2⟩
          have hfold : ∀ (l : List String), (∀ d ∈ l, d ∈ ds) → ∀ s s2,
              List.foldlM (fun s d => visit F m d s) s l = .ok s2 →
              SInv m s →
              (∀ g, s.visited.contains g = true → g ∉ s.sorted →
                Relation.ReflTransGen (mapEdge m) g t) →
              SInv m s2 ∧
              (∃ app, s2.sorted = s.sorted ++ app ∧
                ∀ x ∈ app, Relation.ReflTransGen (mapEdge m) t x) ∧
              (∀ x, (s2.visited.contains x = true ∧ x ∉ s2.sorted) ↔
                (s.visited.contains x = true ∧ x ∉ s.sorted)) := by
            intro l
            induction l with
            | nil =>
              intro _ s s2 hfe hsinv _
              obtain rfl := Except.ok.inj hfe
              exact ⟨hsinv, ⟨[], by simp, fun x hx => absurd hx (List.not_mem_nil x)⟩,
                fun x => Iff.rfl⟩
            | cons d l2 ihl =>
              intro hsub s s2 hfe hsinv hsgray
              rw [foldlM_except_cons] at hfe
              cases hfd : visit F m d s with
              | error e => rw [hfd] at hfe; cases hfe
              | ok s1 =>
                rw [hfd] at hfe
                obtain ⟨hinv1a, ⟨app1, happ1, hr1⟩, hgray1a⟩ :=
                  hstep d s s1 (hsub d (List.mem_cons_self _ _)) hfd hsinv hsgray
                obtain ⟨hinv2a, ⟨app2, happ2, hr2⟩, hgray2a⟩ :=
                  ihl (fun d2 hd2 => hsub d2 (List.mem_cons_of_mem _ hd2)) s1 s2 hfe hinv1a
                    (fun g hg1 hg2 => hsgray g (((hgray1a g).mp ⟨hg1, hg2⟩).1)
                      (((hgray1a g).mp ⟨hg1, hg2⟩).2))
                refine ⟨hinv2a, ⟨app1 ++ app2, ?_, ?_⟩,
                  fun x => (hgray2a x).trans (hgray1a x)⟩
                · rw [happ2, happ1, List.append_assoc]
                · intro x hx
                  rcases List.mem_append.mp hx with h1 | h1
                  · exact hr1 x h1
                  · exact hr2 x h1
          have hgray1 : ∀ g, (t :: st.visited).contains g = true → g ∉ st.sorted →
              Relation.ReflTransGen (mapEdge m) g t := by
            intro g hg1 hg2
            rw [contains_cons] at hg1
            cases hgt : g == t with
            | true =>
              obtain rfl := eq_of_beq hgt
              exact Relation.ReflTransGen.refl
            | false =>
              rw [hgt] at hg1
              simp only [Bool.false_or] at hg1
              exact hgray g hg1 hg2
          obtain ⟨hinv2, ⟨app, happ0, hreach⟩, hgray2⟩ :=
            hfold ds (fun d hd => hd) ⟨t :: st.visited, st.sorted⟩ st2 hf hinv1 hgray1
          have happ : st2.sorted = st.sorted ++ app := happ0
          have htg : st2.visited.contains t = true ∧ t ∉ st2.sorted := by
            apply (hgray2 t).mpr
            constructor
            · show (t :: st.visited).contains t = true
              rw [contains_cons]
              simp
            · exact htns
          have hviss : ∀ x, st.visited.contains x = true → st2.visited.contains x = true := by
            intro x hx
            apply foldVisit_mono F m ds _ st2 hf
            show (t :: st.visited).contains x = true
            rw [contains_cons, hx]
            simp
          have hdss : ∀ d ∈ ds, d ∈ st2.sorted := by
            intro d hd
            have hdv : st2.visited.contains d = true := foldVisit_elems F m ds _ st2 hf d hd
            by_cases hds2 : d ∈ st2.sorted
            · exact hds2
            · exfalso
              have hg1 := (hgray2 d).mp ⟨hdv, hds2⟩
              have hg1c : (d :: []).contains d = true → True := fun _ => trivial
              have hg1a : (t :: st.visited).contains d = true := hg1.1
              have hg1b : d ∉ st.sorted := hg1.2
              rw [contains_cons] at hg1a
              cases hdt : d == t with
              | true =>
                obtain rfl := eq_of_beq hdt
                exact hacyc d (Relation.TransGen.single (htds d hd))
              | false =>
                rw [hdt] at hg1a
                simp only [Bool.false_or] at hg1a
                exact hacyc d
                  (Relation.TransGen.tail' (hgray d hg1a hg1b) (htds d hd))
          have htnotin2 : t ∉ st2.sorted := htg.2
          refine ⟨?_, ?_, ?_⟩
          · refine ⟨?_, ?_, ?_, ?_⟩
            · show (st2.sorted ++ [t]).Nodup
              rw [List.nodup_append]
              refine ⟨hinv2.nd, List.nodup_singleton t, ?_⟩
              intro a ha hat
              obtain rfl := List.mem_singleton.mp hat
              exact htnotin2 ha
            · intro x hx
              show st2.visited.contains x = true
              rcases List.mem_append.mp hx with h1 | h1
              · exact hinv2.sub x h1
              · obtain rfl := List.mem_singleton.mp h1
                exact htg.1
            · intro x hx
              rcases List.mem_append.mp hx with h1 | h1
              · exact hinv2.keys x h1
              · obtain rfl := List.mem_singleton.mp h1
                exact lookup_mem_keys hl
            · intro x hx y hE
              show BeforeL (st2.sorted ++ [t]) y x
              rcases List.mem_append.mp hx with h1 | h1
              · exact BeforeL_append _ _ _ _ (hinv2.ord x h1 y hE)
              · obtain rfl := List.mem_singleton.mp h1
                obtain ⟨dl, hdl, hy⟩ := hE
                rw [hl] at hdl
                obtain rfl := Option.some.inj hdl
                exact BeforeL_mem_append _ _ _ (hdss y hy)
          · refine ⟨app ++ [t], ?_, ?_⟩
            · show st2.sorted ++ [t] = st.sorted ++ (app ++ [t])
              rw [happ, List.append_assoc]
            · intro x hx
              rcases List.mem_append.mp hx with h1 | h1
              · exact hreach x h1
              · obtain rfl := List.mem_singleton.mp h1
                exact Relation.ReflTransGen.refl
          · intro x
            constructor
            · rintro ⟨hx1, hx2⟩
              have hx1a : st2.visited.contains x = true := hx1
              have hxns2 : x ∉ st2.sorted := by
                intro hc
                exact hx2 (List.mem_append.mpr (Or.inl hc))
              have hg1 := (hgray2 x).mp ⟨hx1a, hxns2⟩
              have hg1a : (t :: st.visited).contains x = true := hg1.1
              have hxt : x ≠ t := by
                intro hc
                exact hx2 (List.mem_append.mpr (Or.inr (hc ▸ List.mem_singleton.mpr rfl)))
              rw [contains_cons, beq_eq_false_iff_ne.mpr hxt] at hg1a
              simp only [Bool.false_or] at hg1a
              exact ⟨hg1a, hg1.2⟩
            · rintro ⟨hx1, hx2⟩
              have hxt : x ≠ t := by
                intro hc
                rw [hc, hv] at hx1
                cases hx1
              refine ⟨hviss x hx1, ?_⟩
              intro hc
              rcases List.mem_append.mp hc with h1 | h1
              · have hg1 : (t :: st.visited).contains x = true := by
                  rw [contains_cons, hx1]
                  simp
                have := ((hgray2 x).mpr ⟨hg1, hx2⟩).2
                exact this h1
              · exact hxt (List.mem_singleton.mp h1)

/-! ## C1: the outer traversal over the dependency-map keys -/

lemma eq_singleton_of_mem_all {l : List String} {k : String} (hne : k ∈ l)
    (hall : ∀ x ∈ l, x = k) (hnd : l.Nodup) : l = [k] := by
  cases l with
  | nil => cases hne
  | cons a l2 =>
    obtain rfl := hall a (List.mem_cons_self _ _)
    obtain ⟨hna, hnd2⟩ := List.nodup_cons.mp hnd
    cases l2 with
    | nil => rfl
    | cons b l3 =>
      obtain rfl := hall b (List.mem_cons_of_mem _ (List.mem_cons_self _ _))
      exact absurd (List.mem_cons_self _ _) hna

lemma filter_eq_nil_of_false {l : List String} {p : String → Bool}
    (h : ∀ x ∈ l, p x = false) : l.filter p = [] := by
  induction l with
  | nil => rfl
  | cons a l2 ih =>
    rw [List.filter_cons, h a (List.mem_cons_self _ _), if_neg Bool.false_ne_true]
    exact ih (fun x hx => h x (List.mem_cons_of_mem _ hx))

lemma outer_fold_master (m : DepMap) (hacyc : ∀ x, ¬ Relation.TransGen (mapEdge m) x x)
    (p : String → Bool)
    (hp : ∀ n, p n = true → ∀ y, ¬ mapEdge m n y ∧ ¬ mapEdge m y n) (F : Nat) :
    ∀ (ks : List String), ks.Nodup →
    ∀ (s s2 : SortSt),
      List.foldlM (fun st k => visit F m k st) s ks = .ok s2 →
      SInv m s →
      (∀ x, s.visited.contains x = true → x ∈ s.sorted) →
      (∀ k ∈ ks, p k = true → k ∉ s.sorted) →
      SInv m s2 ∧
      (∀ x, s2.visited.contains x = true → x ∈ s2.sorted) ∧
      (∃ app, s2.sorted = s.sorted ++ app ∧ app.filter p = ks.filter p) ∧
      (∀ k ∈ ks, k ∈ s2.sorted) := by
  intro ks
  induction ks with
  | nil =>
    intro _ s s2 hfe hsinv hng _
    obtain rfl := Except.ok.inj hfe
    exact ⟨hsinv, hng, ⟨[], by simp, rfl⟩, fun k hk => absurd hk (List.not_mem_nil k)⟩
  | cons k ks2 ih =>
    intro hnd s s2 hfe hsinv hng hpk
    obtain ⟨hknotin, hnd2⟩ := List.nodup_cons.mp hnd
    rw [foldlM_except_cons] at hfe
    cases hfk : visit F m k s with
    | error e => rw [hfk] at hfe; cases hfe
    | ok s1 =>
      rw [hfk] at hfe
      have hgray0 : ∀ g, s.visited.contains g = true → g ∉ s.sorted →
          Relation.ReflTransGen (mapEdge m) g k :=
        fun g hg1 hg2 => absurd (hng g hg1) hg2
      obtain ⟨hinv1, ⟨app1, happ1, hr1⟩, hgrayeq⟩ :=
        visit_master m hacyc F k s s1 hfk hsinv hgray0
      have hng1 : ∀ x, s1.visited.contains x = true → x ∈ s1.sorted := by
        intro x hx
        by_cases hxs : x ∈ s1.sorted
        · exact hxs
        · obtain ⟨ha, hb⟩ := (hgrayeq x).mp ⟨hx, hxs⟩
          exact absurd (hng x ha) hb
      have hks1 : k ∈ s1.sorted := hng1 k (visit_ok_self F m k s s1 hfk)
      have happ1nd : app1.Nodup := by
        have hh := hinv1.nd
        rw [happ1] at hh
        exact ((List.nodup_append.mp hh).2).1
      have hnewreach : ∀ x ∈ app1, x = k ∨ ∃ c, Relation.ReflTransGen (mapEdge m) k c ∧
          mapEdge m c x := by
        intro x hx
        rcases Relation.ReflTransGen.cases_tail (hr1 x hx) with h1 | ⟨c, hc1, hc2⟩
        · exact Or.inl h1
        · exact Or.inr ⟨c, hc1, hc2⟩
      have hpk1 : ∀ q ∈ ks2, p q = true → q ∉ s1.sorted := by
        intro q hq hqt hqs
        rw [happ1] at hqs
        rcases List.mem_append.mp hqs with h1 | h1
        · exact hpk q (List.mem_cons_of_mem _ hq) hqt h1
        · rcases hnewreach q h1 with rfl | ⟨c, hc1, hc2⟩
          · exact hknotin hq
          · exact (hp q hqt c).2 hc2
      obtain ⟨hinv2, hng2, ⟨app2, happ2, hfil2⟩, hmem2⟩ :=
        ih hnd2 s1 s2 hfe hinv1 hng1 hpk1
      refine ⟨hinv2, hng2, ⟨app1 ++ app2, ?_, ?_⟩, ?_⟩
      · rw [happ2, happ1, List.append_assoc]
      · rw [List.filter_append, hfil2, List.filter_cons]
        cases hpk0 : p k with
        | true =>
          rw [if_pos rfl]
          have happ1k : app1 = [k] := by
            apply eq_singleton_of_mem_all ?_ ?_ happ1nd
            · have hknots : k ∉ s.sorted := hpk k (List.mem_cons_self _ _) hpk0
              have := hks1
              rw [happ1] at this
              rcases List.mem_append.mp this with h1 | h1
              · exact absurd h1 hknots
              · exact h1
            · intro x hx
              rcases hnewreach x hx with h1 | ⟨c, hc1, hc2⟩
              · exact h1
              · rcases Relation.ReflTransGen.cases_head hc1 with h2 | ⟨c2, hc3, _⟩
                · exact absurd (h2 ▸ hc2) ((hp k hpk0 x).1)
                · exact absurd hc3 ((hp k hpk0 c2).1)
          rw [happ1k, List.filter_cons, if_pos (by rw [hpk0])]
          rfl
        | false =>
          rw [if_neg Bool.false_ne_true]
          have : app1.filter p = [] := by
            apply filter_eq_nil_of_false
            intro x hx
            cases hpx : p x with
            | false => rfl
            | true =>
              exfalso
              rcases hnewreach x hx with rfl | ⟨c, hc1, hc2⟩
              · rw [hpx] at hpk0
                cases hpk0
              · exact (hp x hpx c).2 hc2
          rw [this]
          rfl
      · intro q hq
        rcases List.mem_cons.mp hq with rfl | h1
        · rw [happ2]
          exact List.mem_append.mpr (Or.inl hks1)
        · exact hmem2 q h1

/-! ## C1: positions, the name bridge, and acyclicity transfer -/

lemma posOf_cons_self (x : String) (l : List String) : posOf (x :: l) x = 0 := by
  rw [posOf, if_pos rfl]

lemma posOf_cons_ne (a x : String) (l : List String) (h : a ≠ x) :
    posOf (a :: l) x = posOf l x + 1 := by
  rw [posOf, if_neg h]

lemma posOf_append_not_mem : ∀ (u l : List String) (x : String), x ∉ u →
    posOf (u ++ l) x = u.length + posOf l x := by
  intro u
  induction u with
  | nil => intro l x _; simp
  | cons a u2 ih =>
    intro l x hx
    have hax : a ≠ x := fun hh => hx (hh ▸ List.mem_cons_self _ _)
    rw [List.cons_append, posOf_cons_ne a x _ hax,
      ih l x (fun hh => hx (List.mem_cons_of_mem _ hh)), List.length_cons]
    omega

lemma posOf_lt_of_BeforeL {l : List String} {b a : String} (hnd : l.Nodup)
    (h : BeforeL l b a) : posOf l b < posOf l a := by
  obtain ⟨u, v, w, hdec⟩ := h
  subst hdec
  rw [List.append_assoc, List.cons_append] at hnd ⊢
  obtain ⟨hu, hrest, hdisj⟩ := List.nodup_append.mp hnd
  have hbu : b ∉ u := fun hb => hdisj hb (List.mem_cons_self _ _)
  have hau : a ∉ u := fun ha => hdisj ha
    (List.mem_cons_of_mem _ (List.mem_append.mpr (Or.inr (List.mem_cons_self _ _))))
  obtain ⟨hbn, hnd3⟩ := List.nodup_cons.mp hrest
  have hab2 : b ≠ a := by
    intro hh
    apply hbn
    rw [hh]
    exact List.mem_append.mpr (Or.inr (List.mem_cons_self _ _))
  obtain ⟨hv, hw2, hdisj2⟩ := List.nodup_append.mp hnd3
  have hav : a ∉ v := fun ha => hdisj2 ha (List.mem_cons_self _ _)
  rw [posOf_append_not_mem u _ b hbu, posOf_append_not_mem u _ a hau,
    posOf_cons_self, posOf_cons_ne b a _ hab2,
    posOf_append_not_mem v _ a hav, posOf_cons_self]
  omega

lemma filter_name_not_mem : ∀ (tables : List Table) (n : String),
    n ∉ tables.map Table.name → tables.filter (fun tb => tb.name == n) = [] := by
  intro tables
  induction tables with
  | nil => intro n _; rfl
  | cons tb rest ih =>
    intro n hn
    have hne : (tb.name == n) = false := by
      apply beq_eq_false_iff_ne.mpr
      intro hh
      apply hn
      rw [List.map_cons, ← hh]
      exact List.mem_cons_self _ _
    rw [List.filter_cons, hne, if_neg Bool.false_ne_true]
    exact ih n (fun hh => hn (by rw [List.map_cons]; exact List.mem_cons_of_mem _ hh))

lemma filter_name_single : ∀ (tables : List Table), (tables.map Table.name).Nodup →
    ∀ n, n ∈ tables.map Table.name →
    (tables.filter (fun tb => tb.name == n)).map Table.name = [n] := by
  intro tables
  induction tables with
  | nil => intro _ n hn; cases hn
  | cons tb rest ih =>
    intro hnd n hn
    rw [List.map_cons] at hn
    obtain ⟨hh, hnd2⟩ := List.nodup_cons.mp hnd
    cases hbe : tb.name == n with
    | true =>
      obtain rfl := eq_of_beq hbe
      rw [List.filter_cons, if_pos hbe, List.map_cons,
        filter_name_not_mem rest tb.name hh]
      rfl
    | false =>
      have h1 : n ∈ rest.map Table.name := by
        rcases List.mem_cons.mp hn with h2 | h2
        · exfalso
          rw [h2] at hbe
          simp at hbe
        · exact h2
      rw [List.filter_cons, if_neg (by rw [hbe]; exact Bool.false_ne_true)]
      exact ih hnd2 n h1

lemma flatten_filter_map_name (tables : List Table) (hnd : (tables.map Table.name).Nodup) :
    ∀ (ns : List String), (∀ n ∈ ns, n ∈ tables.map Table.name) →
      ((ns.map (fun n => tables.filter (fun tb => tb.name == n))).flatten).map Table.name
        = ns := by
  intro ns
  induction ns with
  | nil => intro _; rfl
  | cons n ns2 ih =>
    intro hin
    rw [List.map_cons, List.flatten_cons, List.map_append,
      filter_name_single tables hnd n (hin n (List.mem_cons_self _ _)),
      ih (fun q hq => hin q (List.mem_cons_of_mem _ hq))]
    rfl

lemma relFreeB_no_edge {rels : List Relationship} {n : String}
    (h : relFreeB rels n = true) : ∀ a b, relEdge rels a b → a ≠ n ∧ b ≠ n := by
  rintro a b ⟨rel, hrel, hrt⟩
  have hall := List.all_eq_true.mp h rel hrel
  rw [hrt] at hall
  have hall2 : (!(a == n) && !(b == n)) = true := hall
  simp only [Bool.and_eq_true] at hall2
  obtain ⟨h1, h2⟩ := hall2
  constructor
  · intro hh
    rw [hh] at h1
    simp at h1
  · intro hh
    rw [hh] at h2
    simp at h2

lemma transGen_single_pair {E : String → String → Prop} {a b : String}
    (hE : ∀ x y, E x y → x = a ∧ y = b) (hab : a ≠ b) :
    ∀ x, ¬ Relation.TransGen E x x := by
  have hchain : ∀ x y, Relation.TransGen E x y → x = a ∧ y = b := by
    intro x y hxy
    induction hxy with
    | single h => exact hE _ _ h
    | tail hxy hyz ihy => exact ⟨ihy.1, (hE _ _ hyz).2⟩
  intro x hx
  obtain ⟨h1, h2⟩ := hchain x x hx
  exact hab (h1 ▸ h2)

/-- C1: on a schema with distinct table names whose foreign-key graph is
acyclic and whose (truthy) relationship source/target table names all occur
in the table list, the dependency sort succeeds, and in the sorted table
list: for every relationship the target table appears strictly before the
source table — so its position is ≤ (indeed <) the source's position and
each table's dependencies are emitted before the table itself — and the
tables taking part in no relationship keep their traversal (input) order. -/
theorem c1_dependency_sort_order (tables : List Table) (rels : List Relationship)
    (hnd : (tables.map Table.name).Nodup)
    (hin : ∀ rel ∈ rels, ∀ s t, relTruthy rel = some (s, t) →
      s ∈ tables.map Table.name ∧ t ∈ tables.map Table.name)
    (hacyc : ∀ x, ¬ Relation.TransGen (relEdge rels) x x) :
    ∃ L, sort_tables_by_dependencies tables rels = .ok L ∧
      (∀ rel ∈ rels, ∀ s t, relTruthy rel = some (s, t) →
        BeforeL (L.map Table.name) t s ∧
        posOf (L.map Table.name) t ≤ posOf (L.map Table.name) s) ∧
      (L.map Table.name).filter (relFreeB rels) =
        (tables.map Table.name).filter (relFreeB rels) := by
  obtain ⟨m, hbm, hkeys0⟩ := buildDepMap_total tables rels
    (fun rel hrel s t hrt => (hin rel hrel s t hrt).1)
  obtain ⟨hkeys, hedge, hsrc⟩ := buildDepMap_spec hbm
  have hnames : dictKeys (tables.map Table.name) = tables.map Table.name :=
    dictKeys_of_nodup _ hnd
  have hmacyc : ∀ x, ¬ Relation.TransGen (mapEdge m) x x := by
    intro x hx
    exact hacyc x (Relation.TransGen.mono (fun a b h => (hedge a b).mp h) hx)
  have hclosed : MapClosed m := by
    intro x l hlk d hd
    obtain ⟨rel, hrel, hrt⟩ := (hedge x d).mp ⟨l, hlk, hd⟩
    rw [hkeys, mem_dictKeys]
    exact (hin rel hrel x d hrt).2
  have hksnd : (List.map Prod.fst m).Nodup := by
    show (keysOf m).Nodup
    rw [hkeys]
    exact dictKeys_nodup _
  obtain ⟨stF, hfold, _⟩ := foldlM_except_ok_mem (I := fun _ : SortSt => True)
    (fun _ _ _ _ _ => trivial) (List.map Prod.fst m)
    (fun st k hk _ => visit_total ((List.map Prod.fst m).length + 1) m k st
      (Nat.lt_succ_of_le (U_le_keys m st)) hclosed hk)
    (⟨[], []⟩ : SortSt) trivial
  have hinv0 : SInv m ⟨[], []⟩ :=
    ⟨List.nodup_nil, fun x hx => absurd hx (List.not_mem_nil x),
     fun x hx => absurd hx (List.not_mem_nil x),
     fun x hx _ _ => absurd hx (List.not_mem_nil x)⟩
  have hp : ∀ n, relFreeB rels n = true → ∀ y, ¬ mapEdge m n y ∧ ¬ mapEdge m y n := by
    intro n hn y
    constructor
    · intro hmy
      exact ((relFreeB_no_edge hn n y ((hedge n y).mp hmy)).1) rfl
    · intro hmy
      exact ((relFreeB_no_edge hn y n ((hedge y n).mp hmy)).2) rfl
  obtain ⟨hinvF, hngF, ⟨app, happF, hfilF⟩, hmemF⟩ :=
    outer_fold_master m hmacyc (relFreeB rels) hp ((List.map Prod.fst m).length + 1)
      (List.map Prod.fst m) hksnd ⟨[], []⟩ stF hfold hinv0
      (fun x hx => absurd hx Bool.false_ne_true)
      (fun k hk hkt => List.not_mem_nil k)
  rw [List.nil_append] at happF
  have hsn : sortNames tables rels = .ok stF.sorted := by
    unfold sortNames
    rw [hbm]
    show (match List.foldlM (fun st k => visit ((List.map Prod.fst m).length + 1) m k st)
        (⟨[], []⟩ : SortSt) (List.map Prod.fst m) with
      | Except.error e => Except.error e
      | Except.ok st => Except.ok st.sorted) = Except.ok stF.sorted
    rw [hfold]
  have hsort : sort_tables_by_dependencies tables rels =
      .ok ((stF.sorted.map (fun n => tables.filter (fun tb => tb.name == n))).flatten) := by
    unfold sort_tables_by_dependencies
    rw [hsn]
  have hsubk : ∀ n ∈ stF.sorted, n ∈ tables.map Table.name := by
    intro n hnm
    have hk2 := hinvF.keys n hnm
    rw [hkeys, mem_dictKeys] at hk2
    exact hk2
  have hmap : ((stF.sorted.map
        (fun n => tables.filter (fun tb => tb.name == n))).flatten).map Table.name
      = stF.sorted := flatten_filter_map_name tables hnd stF.sorted hsubk
  refine ⟨_, hsort, ?_, ?_⟩
  · intro rel hrel s t hrt
    have hme : mapEdge m s t := (hedge s t).mpr ⟨rel, hrel, hrt⟩
    have hsk : s ∈ List.map Prod.fst m := by
      show s ∈ keysOf m
      rw [hkeys, mem_dictKeys]
      exact (hin rel hrel s t hrt).1
    have hss : s ∈ stF.sorted := hmemF s hsk
    have hbef : BeforeL stF.sorted t s := hinvF.ord s hss t hme
    rw [hmap]
    exact ⟨hbef, le_of_lt (posOf_lt_of_BeforeL hinvF.nd hbef)⟩
  · rw [hmap, happF, hfilF]
    show (keysOf m).filter (relFreeB rels) =
      (tables.map Table.name).filter (relFreeB rels)
    rw [hkeys, hnames]

/-- Witness for C1: the two-table users/posts schema with one foreign key
from posts to users sorts successfully with users before posts. -/
theorem c1_dependency_sort_order_witness :
    ∃ L, sort_tables_by_dependencies
        [⟨"users", "", [], [], false⟩, ⟨"posts", "", [], [], false⟩]
        [⟨"fk", some "posts", some "users", [], [], "", ""⟩] = .ok L ∧
      (∀ rel ∈ [(⟨"fk", some "posts", some "users", [], [], "", ""⟩ : Relationship)],
        ∀ s t, relTruthy rel = some (s, t) →
        BeforeL (L.map Table.name) t s ∧
        posOf (L.map Table.name) t ≤ posOf (L.map Table.name) s) ∧
      (L.map Table.name).filter
          (relFreeB [⟨"fk", some "posts", some "users", [], [], "", ""⟩]) =
        ([(⟨"users", "", [], [], false⟩ : Table),
          ⟨"posts", "", [], [], false⟩].map Table.name).filter
          (relFreeB [⟨"fk", some "posts", some "users", [], [], "", ""⟩]) := by
  apply c1_dependency_sort_order
  · decide
  · rintro rel hrel s t hrt
    obtain rfl := List.mem_singleton.mp hrel
    have h2 : some (("posts" : String), ("users" : String)) = some (s, t) := hrt
    obtain ⟨h3, h4⟩ := Prod.mk.injEq .. ▸ Option.some.inj h2
    rw [← h3, ← h4]
    exact ⟨by decide, by decide⟩
  · apply transGen_single_pair (a := "posts") (b := "users")
    · intro x y hxy
      rw [relEdge_cons] at hxy
      rcases hxy with h1 | h1
      · have h2 : some (("posts" : String), ("users" : String)) = some (x, y) := h1
        obtain ⟨h3, h4⟩ := Prod.mk.injEq .. ▸ Option.some.inj h2
        exact ⟨h3.symm, h4.symm⟩
      · exact absurd h1 (relEdge_nil x y)
    · decide

end LaravelGen
